/-
Verification of `pydash/api/objects.py` (lodash-style object utilities).

Shallow embedding strategy:
* A pure value universe `Val` models the Python data the library manipulates
  (None, bool, int, str, list, dict).  Purely functional operations
  (`parse_int`, `is_equal`, the `is_*` predicates, `find_key`, `invert`,
  `assign`, the per-key semantics of `merge`) are translated directly into
  Lean functions over `Val`.
* An explicit heap model (`PyNode`, `Heap`) with addresses models Python's
  reference semantics for the claims about in-place mutation and aliasing
  (`merge` mutating sources, `update_path`/`set_path` never mutating their
  argument).  Heap operations are state-passing; fallible steps return
  `Option`.
* Helper functions of the repository that live outside the provided source
  file (`pydash/api/utilities.py`: `iterator`, `itercallback`, `get_item`,
  `set_item`; `pydash/api/arrays.py`: `initial`, `last`; the host's
  comparison operators and JSON parser) are modelled from the spec, as
  marked in their doc comments.
-/
import Mathlib

namespace Pydash

/-- Keys of Python containers as used by this library: list indices are
integers, dict keys are (practically) strings or integers (spec §3: "for
sequences, a non-negative integer index; for mappings, any hashable value
(practically strings)"). -/
inductive PKey where
  | kI (n : Int)
  | kS (s : String)
deriving DecidableEq

/-- Pure structural Python values: `None`, booleans, integers, strings,
lists and (insertion-ordered) dicts represented as association lists. -/
inductive Val where
  | none
  | bool (b : Bool)
  | int (n : Int)
  | str (s : String)
  | list (xs : List Val)
  | dict (xs : List (PKey × Val))

mutual

/-- Boolean structural equality on `Val` (used to build `DecidableEq`,
which the derive handler does not support for nested inductives). -/
def Val.beq : Val → Val → Bool
  | .none, .none => true
  | .bool a, .bool b => a == b
  | .int a, .int b => a == b
  | .str a, .str b => a == b
  | .list xs, .list ys => Val.beqList xs ys
  | .dict xs, .dict ys => Val.beqPairs xs ys
  | _, _ => false

/-- Elementwise `Val.beq` on lists. -/
def Val.beqList : List Val → List Val → Bool
  | [], [] => true
  | x :: xs, y :: ys => Val.beq x y && Val.beqList xs ys
  | _, _ => false

/-- Elementwise `Val.beq` on key/value pair lists. -/
def Val.beqPairs : List (PKey × Val) → List (PKey × Val) → Bool
  | [], [] => true
  | (k, v) :: xs, (k', v') :: ys => k == k' && Val.beq v v' && Val.beqPairs xs ys
  | _, _ => false

end

mutual

/-- `Val.beq` decides equality. -/
theorem Val.beq_iff : (a b : Val) → (Val.beq a b = true ↔ a = b)
  | .none, b => by cases b <;> simp [Val.beq]
  | .bool x, b => by cases b <;> simp [Val.beq]
  | .int x, b => by cases b <;> simp [Val.beq]
  | .str x, b => by cases b <;> simp [Val.beq]
  | .list xs, b => by
      cases b <;> simp [Val.beq]
      exact Val.beqList_iff xs _
  | .dict xs, b => by
      cases b <;> simp [Val.beq]
      exact Val.beqPairs_iff xs _

/-- `Val.beqList` decides equality. -/
theorem Val.beqList_iff : (xs ys : List Val) → (Val.beqList xs ys = true ↔ xs = ys)
  | [], ys => by cases ys <;> simp [Val.beqList]
  | x :: xs, [] => by simp [Val.beqList]
  | x :: xs, y :: ys => by
      simp [Val.beqList, Val.beq_iff x y, Val.beqList_iff xs ys]

/-- `Val.beqPairs` decides equality. -/
theorem Val.beqPairs_iff : (xs ys : List (PKey × Val)) →
    (Val.beqPairs xs ys = true ↔ xs = ys)
  | [], ys => by cases ys <;> simp [Val.beqPairs]
  | x :: xs, [] => by simp [Val.beqPairs]
  | (k, v) :: xs, (k', v') :: ys => by
      simp [Val.beqPairs, Val.beq_iff v v', Val.beqPairs_iff xs ys]
      try tauto

end

instance : DecidableEq Val := fun a b =>
  decidable_of_iff (Val.beq a b = true) (Val.beq_iff a b)

/-- Python truthiness (`bool(value)`): `None` and zero/empty values are
falsy; everything else is truthy. -/
def Val.truthy : Val → Bool
  | .none => false
  | .bool b => b
  | .int n => n != 0
  | .str s => s != ""
  | .list xs => !xs.isEmpty
  | .dict xs => !xs.isEmpty

/-- Association-list lookup for dict nodes (Python `d[key]`). -/
def dictGet (xs : List (PKey × Val)) (k : PKey) : Option Val :=
  (xs.find? (fun p => p.1 == k)).map Prod.snd

/-- Python `d[key] = value` on an insertion-ordered dict: update in place
when the key is present, append otherwise. -/
def dictSet (xs : List (PKey × Val)) (k : PKey) (v : Val) :
    List (PKey × Val) :=
  match xs with
  | [] => [(k, v)]
  | (k', v') :: rest =>
      if k' = k then (k', v) :: rest else (k', v') :: dictSet rest k v

/-- Modelled from the spec (utilities `iterator`, §4.1, not under `src/`):
yields (key, value) pairs of a container, index/value pairs for sequences
and key/value pairs (insertion order) for mappings.  Non-containers are
not iterable (§3: "No other container kinds are recognized by the core");
iterating them is a host error, modelled as `Option.none`. -/
def iteratorP : Val → Option (List (PKey × Val))
  | .list xs => some (xs.enum.map (fun p => (PKey.kI p.1, p.2)))
  | .dict xs => some xs
  | _ => Option.none

/-- Modelled from the spec (utilities `get_item` with a `default`, §4.4:
an absent destination value is treated as missing): safe lookup that
returns the default when the key is not present. -/
def getItemD (v : Val) (k : PKey) (dflt : Val) : Val :=
  match v, k with
  | .dict xs, _ => (dictGet xs k).getD dflt
  | .list xs, .kI i =>
      if h : 0 ≤ i ∧ i.toNat < xs.length then xs.get ⟨i.toNat, h.2⟩ else dflt
  | _, _ => dflt

/-- Modelled from the spec (utilities `set_item`, §4.4/§4.5, not under
`src/`): store `value` at `key`.  For mappings, overwrite or append, but
only when `allowOverride` or the key is absent (§4.5: "WITHOUT overriding
an already-present value").  For sequences, an in-range index is
overwritten (subject to `allowOverride`) and the next free index appends
(auto-vivification along sequence paths, §4.5/glossary); any other write
is a host error (§7: "setting on a non-container" and genuinely invalid
operations propagate host errors), modelled as `Option.none`. -/
def setItemP (v : Val) (k : PKey) (x : Val) (allowOverride : Bool) :
    Option Val :=
  match v, k with
  | .dict xs, _ =>
      if allowOverride || (dictGet xs k).isNone then some (.dict (dictSet xs k x))
      else some (.dict xs)
  | .list xs, .kI i =>
      if 0 ≤ i ∧ i.toNat < xs.length then
        if allowOverride then some (.list (xs.set i.toNat x)) else some (.list xs)
      else if i = xs.length then some (.list (xs ++ [x]))
      else Option.none
  | _, _ => Option.none

/-- `isinstance(value, list)` (source `is_list`, line 596). -/
def is_list : Val → Bool
  | .list _ => true
  | _ => false

/-- `isinstance(value, dict)` (source `is_plain_object`, line 722). -/
def is_plain_object : Val → Bool
  | .dict _ => true
  | _ => false

/-- `isinstance(value, (list, dict))` (source `is_object`, line 694). -/
def is_object : Val → Bool
  | .list _ => true
  | .dict _ => true
  | _ => false

/-- `isinstance(value, string_types)` (source `is_string`, line 799). -/
def is_string : Val → Bool
  | .str _ => true
  | _ => false

/-- `isinstance(value, bool)` (source `is_boolean`, line 357). -/
def is_boolean : Val → Bool
  | .bool _ => true
  | _ => false

/-- `not is_boolean(value) and isinstance(value, number_types)` (source
`is_number`, line 676).  In this universe the numeric values are the
integers (Python's `bool` is an `int` subclass, hence the explicit
exclusion in the source; floats/decimals are outside the embedding). -/
def is_number : Val → Bool
  | .bool _ => false
  | .int _ => true
  | _ => false

/-- `any([is_boolean(value), is_number(value), not value])` (source
`is_empty`, line 402). -/
def is_empty (v : Val) : Bool :=
  is_boolean v || is_number v || !v.truthy

/-- `is_sequences`/`is_mappings` test of `merge` (lines 905-910):
`all([src_value, isinstance(src_value, list), isinstance(obj_value, list)])`
— note only the *source* value's truthiness is tested. -/
def mergeFamilies (objValue srcValue : Val) : Bool :=
  (srcValue.truthy && is_list srcValue && is_list objValue) ||
  (srcValue.truthy && is_plain_object srcValue && is_plain_object objValue)

mutual

/-- The recursive no-callback call `merge(obj_value, src_value)` of the
source (line 913), at the value level: iterate the source's pairs
(`iterator`), compute each stored result, `set_item` it into the
destination.  A non-container source is not iterable (host error,
`Option.none`); so is an out-of-range sequence write. -/
def mergeVal (d s : Val) : Option Val :=
  match s with
  | .list xs => mergeValList d 0 xs
  | .dict xs => mergeValDict d xs
  | _ => Option.none

/-- `merge`'s inner loop over a sequence source (keys are indices,
as produced by `iterator`/`enumerate`). -/
def mergeValList (d : Val) (i : Nat) : List Val → Option Val
  | [] => some d
  | sv :: rest => do
      let ov := getItemD d (.kI i) .none
      let res ← if mergeFamilies ov sv then mergeVal ov sv else pure sv
      let d' ← setItemP d (.kI i) res true
      mergeValList d' (i + 1) rest

/-- `merge`'s inner loop over a mapping source. -/
def mergeValDict (d : Val) : List (PKey × Val) → Option Val
  | [] => some d
  | (k, sv) :: rest => do
      let ov := getItemD d k .none
      let res ← if mergeFamilies ov sv then mergeVal ov sv else pure sv
      let d' ← setItemP d k res true
      mergeValDict d' rest

end

/-- The per-key stored result of `merge` (lines 912-917): recursive merge
when the family test passes and no callback is supplied, else the
callback's result, else the source value. -/
def mergeResult (cb : Option (Val → Val → Val)) (ov sv : Val) : Option Val :=
  if mergeFamilies ov sv && cb.isNone then mergeVal ov sv
  else
    match cb with
    | some f => some (f ov sv)
    | Option.none => some sv

/-- One source's pass of the top-level `merge` (lines 902-919), with the
optional callback. -/
def mergeSourcePairs (cb : Option (Val → Val → Val)) (d : Val) :
    List (PKey × Val) → Option Val
  | [] => some d
  | (k, sv) :: rest => do
      let ov := getItemD d k .none
      let res ← mergeResult cb ov sv
      let d' ← setItemP d k res true
      mergeSourcePairs cb d' rest

/-- Top-level `merge(obj, *sources, callback=callback)` (lines 874-921) at
the value level: fold the sources left to right. -/
def merge (cb : Option (Val → Val → Val)) (d : Val) :
    List Val → Option Val
  | [] => some d
  | s :: rest => do
      let pairs ← iteratorP s
      let d' ← mergeSourcePairs cb d pairs
      merge cb d' rest

/-- Value of a character as a digit, as Python's `int(str, base)` accepts
them (`0-9`, `a-z`, `A-Z`). -/
def digitVal (c : Char) : Option Nat :=
  if '0' ≤ c ∧ c ≤ '9' then some (c.toNat - '0'.toNat)
  else if 'a' ≤ c ∧ c ≤ 'z' then some (c.toNat - 'a'.toNat + 10)
  else if 'A' ≤ c ∧ c ≤ 'Z' then some (c.toNat - 'A'.toNat + 10)
  else Option.none

/-- Accumulate digits in the given base; any non-digit (or digit at or
above the base) makes the whole parse fail. -/
def parseDigitsAux (base : Nat) (acc : Nat) : List Char → Option Nat
  | [] => some acc
  | c :: cs =>
      match digitVal c with
      | some d => if d < base then parseDigitsAux base (acc * base + d) cs
                  else Option.none
      | Option.none => Option.none

/-- A non-empty run of digits in the given base. -/
def parseDigits (base : Nat) : List Char → Option Nat
  | [] => Option.none
  | cs => parseDigitsAux base 0 cs

/-- Modelled from the host's `int(text, base)` builtin (a collaborator of
`parse_int`, not repository code): optional surrounding whitespace, an
optional sign, an optional `0x`/`0o`/`0b` prefix when the base matches,
then a non-empty digit run; bases outside `2..36` are a `ValueError`
(which `parse_int` catches).  Python-2-era semantics (no underscore
separators). -/
def pyIntOfString (s : String) (base : Int) : Option Int :=
  if base < 2 ∨ 36 < base then Option.none
  else
    let b := base.toNat
    let cs := (s.toList.dropWhile Char.isWhitespace).reverse.dropWhile
        Char.isWhitespace |>.reverse
    let signAndRest : Int × List Char :=
      match cs with
      | '-' :: rest => (-1, rest)
      | '+' :: rest => (1, rest)
      | _ => (1, cs)
    let body : List Char :=
      match b, signAndRest.2 with
      | 16, '0' :: 'x' :: rest => rest
      | 16, '0' :: 'X' :: rest => rest
      | 8, '0' :: 'o' :: rest => rest
      | 8, '0' :: 'O' :: rest => rest
      | 2, '0' :: 'b' :: rest => rest
      | 2, '0' :: 'B' :: rest => rest
      | _, r => r
    (parseDigits b body).map (fun n => signAndRest.1 * (n : Int))

mutual

/-- Modelled from the host's `str()`/`repr()` builtins (used by
`parse_int`'s `text_type(value)`): the textual form of a value.  `str`
of a string is the string itself; containers render with brackets and
comma-separated `repr`s of their elements. -/
def pyStrOfVal : Val → String
  | .str s => s
  | v => pyReprOfVal v

/-- `repr()` of a value (strings quoted; escape sequences elided as they
never matter to `parse_int`, the only consumer). -/
def pyReprOfVal : Val → String
  | .none => "None"
  | .bool b => if b then "True" else "False"
  | .int n => toString n
  | .str s => "'" ++ s ++ "'"
  | .list xs => "[" ++ pyReprList xs ++ "]"
  | .dict xs => "\x7b" ++ pyReprPairs xs ++ "\x7d"

/-- Comma-separated `repr`s of list elements. -/
def pyReprList : List Val → String
  | [] => ""
  | [x] => pyReprOfVal x
  | x :: rest => pyReprOfVal x ++ ", " ++ pyReprList rest

/-- Comma-separated `repr`s of dict items. -/
def pyReprPairs : List (PKey × Val) → String
  | [] => ""
  | [(k, v)] => pyReprOfKey k ++ ": " ++ pyReprOfVal v
  | (k, v) :: rest =>
      pyReprOfKey k ++ ": " ++ pyReprOfVal v ++ ", " ++ pyReprPairs rest

/-- `repr()` of a dict key. -/
def pyReprOfKey : PKey → String
  | .kI n => toString n
  | .kS s => "'" ++ s ++ "'"

end

/-- Modelled from the host's one-argument `int(value)` builtin: integers
pass through, booleans coerce to 0/1, strings parse in base 10, and
everything else is a `TypeError` (which `parse_int` catches). -/
def pyIntOfVal : Val → Option Int
  | .bool b => some (if b then 1 else 0)
  | .int n => some n
  | .str s => pyIntOfString s 10
  | _ => Option.none

/-- `parse_int(value, radix=None)` (source lines 966-1001).  A falsy radix
(`None` or `0`) triggers the hex sniff on strings: if `int(value, 16)`
succeeds the radix becomes 16, else it defaults to 10.  With radix 10 the
bare `int(value)` is used; otherwise `int(text_type(value), radix)`.
`ValueError`/`TypeError` are swallowed into `None`; the function is total
(never raises), which the `Option Int` result type makes structural. -/
def parse_int (value : Val) (radix0 : Option Int) : Option Int :=
  let falsy : Option Int → Bool := fun r =>
    match r with
    | some x => x == 0
    | Option.none => true
  let radix1 : Option Int :=
    if falsy radix0 ∧ is_string value then
      match value with
      | .str s => if (pyIntOfString s 16).isSome then some 16 else radix0
      | _ => radix0
    else radix0
  let radix2 : Int := if falsy radix1 then 10 else radix1.getD 10
  if radix2 = 10 then pyIntOfVal value
  else pyIntOfString (pyStrOfVal value) radix2

/-- `type(a) is type(b)` restricted to this universe's runtime kinds. -/
def sameType : Val → Val → Bool
  | .none, .none => true
  | .bool _, .bool _ => true
  | .int _, .int _ => true
  | .str _, .str _ => true
  | .list _, .list _ => true
  | .dict _, .dict _ => true
  | _, _ => false

/-- `len(v)` for the containers of this universe (only ever consulted by
`is_equal` behind an `is_object` guard). -/
def lenV : Val → Nat
  | .list xs => xs.length
  | .dict xs => xs.length
  | .str s => s.length
  | _ => 0

mutual

/-- Modelled from the host's `==` (spec §6: "Host-native equality ... for
scalar leaf values", plus structural container equality): numbers compare
numerically (`True == 1`), strings textually, lists elementwise in order,
dicts by key lookup irrespective of order, and mismatched kinds are
unequal. -/
def pyEq : Val → Val → Bool
  | .none, .none => true
  | .bool a, .bool b => a == b
  | .bool a, .int b => (if a then (1 : Int) else 0) == b
  | .int a, .bool b => a == (if b then (1 : Int) else 0)
  | .int a, .int b => a == b
  | .str a, .str b => a == b
  | .list xs, .list ys => pyEqList xs ys
  | .dict xs, .dict ys => xs.length == ys.length && pyEqPairsIn xs ys
  | _, _ => false

/-- Elementwise `==` on list contents. -/
def pyEqList : List Val → List Val → Bool
  | [], [] => true
  | x :: xs, y :: ys => pyEq x y && pyEqList xs ys
  | _, _ => false

/-- Every pair of the first dict is matched by value in the second. -/
def pyEqPairsIn : List (PKey × Val) → List (PKey × Val) → Bool
  | [], _ => true
  | (k, v) :: rest, ys =>
      (match dictGet ys k with
       | some v' => pyEq v v'
       | Option.none => false) && pyEqPairsIn rest ys

end

/-- `has(obj, key)` (source lines 309-321): membership among the iterated
keys. -/
def has (obj : Val) (k : PKey) : Bool :=
  match iteratorP obj with
  | some pairs => pairs.any (fun p => p.1 == k)
  | Option.none => false

mutual

/-- `is_equal(a, b, callback)` (source lines 419-461).  The callback's
value is returned verbatim when it is not `None`; when the callback is
present and both operands are containers of the same runtime type and
length, the pairs of `a` are walked recursively (`False` on a key of `a`
missing from `b`, breaking on the first non-truthy result); otherwise the
native `==` decides.  Like the source, the result is whatever value ends
up in `equal` — not necessarily a boolean. -/
def is_equal (cb : Option (Val → Val → Val)) (a b : Val) : Val :=
  let equal : Val :=
    match cb with
    | some f => f a b
    | Option.none => Val.none
  if equal ≠ Val.none then equal
  else if cb.isSome && sameType a b && is_object a && is_object b &&
      lenV a == lenV b then
    match a with
    | .list xs => isEqualList cb b 0 xs
    | .dict xs => isEqualDict cb b xs
    | _ => Val.none
  else .bool (pyEq a b)

/-- `is_equal`'s walk over a sequence `a` (keys are indices). -/
def isEqualList (cb : Option (Val → Val → Val)) (b : Val) (i : Nat) :
    List Val → Val
  | [] => Val.none
  | v :: rest =>
      let e : Val :=
        if has b (.kI i) then is_equal cb v (getItemD b (.kI i) .none)
        else .bool false
      if !e.truthy then e
      else
        match rest with
        | [] => e
        | _ => isEqualList cb b (i + 1) rest

/-- `is_equal`'s walk over a mapping `a`. -/
def isEqualDict (cb : Option (Val → Val → Val)) (b : Val) :
    List (PKey × Val) → Val
  | [] => Val.none
  | (k, v) :: rest =>
      let e : Val :=
        if has b k then is_equal cb v (getItemD b k .none)
        else .bool false
      if !e.truthy then e
      else
        match rest with
        | [] => e
        | _ => isEqualDict cb b rest

end

mutual

/-- Modelled from the spec (§6: "Host-native equality and comparison
operators", §4.3: "Comparison uses the container's natural ordering
operator"): a total Python-2-style ordering — numbers compare
numerically (booleans as 0/1), otherwise values are ranked by kind, and
same-kind containers compare length-then-lexicographically.  Totality is
what the monotonicity predicates' never-raise policy relies on. -/
def pyCmp : Val → Val → Ordering
  | .none, .none => .eq
  | .none, _ => .lt
  | _, .none => .gt
  | .bool a, .bool b => compare (if a then (1 : Int) else 0) (if b then 1 else 0)
  | .bool a, .int b => compare (if a then (1 : Int) else 0) b
  | .int a, .bool b => compare a (if b then (1 : Int) else 0)
  | .int a, .int b => compare a b
  | .bool _, _ => .lt
  | .int _, _ => .lt
  | _, .bool _ => .gt
  | _, .int _ => .gt
  | .str a, .str b => compare a b
  | .list xs, .list ys => pyCmpList xs ys
  | .dict xs, .dict ys =>
      match compare xs.length ys.length with
      | .eq => pyCmpPairs xs ys
      | o => o
  | .dict _, _ => .lt
  | _, .dict _ => .gt
  | .list _, .str _ => .lt
  | .str _, .list _ => .gt

/-- Lexicographic comparison of list contents. -/
def pyCmpList : List Val → List Val → Ordering
  | [], [] => .eq
  | [], _ => .lt
  | _, [] => .gt
  | x :: xs, y :: ys =>
      match pyCmp x y with
      | .eq => pyCmpList xs ys
      | o => o

/-- Lexicographic comparison of dict items. -/
def pyCmpPairs : List (PKey × Val) → List (PKey × Val) → Ordering
  | [], [] => .eq
  | [], _ => .lt
  | _, [] => .gt
  | (_, v) :: xs, (_, v') :: ys =>
      match pyCmp v v' with
      | .eq => pyCmpPairs xs ys
      | o => o

end

/-- `operator.le` over the modelled total ordering. -/
def pyLe (a b : Val) : Bool := pyCmp a b ≠ .gt

/-- `operator.lt` over the modelled total ordering. -/
def pyLt (a b : Val) : Bool := pyCmp a b = .lt

/-- `operator.ge` over the modelled total ordering. -/
def pyGe (a b : Val) : Bool := pyCmp a b ≠ .lt

/-- `operator.gt` over the modelled total ordering. -/
def pyGt (a b : Val) : Bool := pyCmp a b = .gt

/-- The adjacent-pair scan of `is_monotone` (lines 625-629):
`izip(value, islice(value, 1, None))`, breaking at the first violation. -/
def monoScan (op : Val → Val → Bool) : List Val → Bool
  | x :: y :: rest => op x y && monoScan op (y :: rest)
  | _ => true

/-- `is_monotone(value, op)` (source lines 610-631): a non-list is wrapped
into the singleton `[value]` before the adjacent-pair scan (and is
therefore vacuously monotone). -/
def is_monotone (v : Val) (op : Val → Val → Bool) : Bool :=
  match (if is_list v then v else .list [v]) with
  | .list xs => monoScan op xs
  | _ => true

/-- `is_increasing` (line 520): `is_monotone(value, operator.le)`. -/
def is_increasing (v : Val) : Bool := is_monotone v pyLe

/-- `is_decreasing` (line 388): `is_monotone(value, operator.ge)`. -/
def is_decreasing (v : Val) : Bool := is_monotone v pyGe

/-- `is_strictly_increasing` (line 785): `is_monotone(value, operator.lt)`. -/
def is_strictly_increasing (v : Val) : Bool := is_monotone v pyLt

/-- `is_strictly_decreasing` (line 771): `is_monotone(value, operator.gt)`. -/
def is_strictly_decreasing (v : Val) : Bool := is_monotone v pyGt

/-- JSON insignificant whitespace. -/
def jsonSkipWs (cs : List Char) : List Char :=
  cs.dropWhile (fun c => c == ' ' || c == '\t' || c == '\n' || c == '\r')

/-- Scan a JSON string body after the opening quote, honouring `\`
escapes; yields the remainder after the closing quote. -/
def jsonStringBody : List Char → Option (List Char)
  | [] => Option.none
  | '"' :: rest => some rest
  | '\\' :: _ :: rest => jsonStringBody rest
  | _ :: rest => jsonStringBody rest

/-- A JSON number: optional minus, digits, optional fraction and
exponent. -/
def jsonNumber (cs : List Char) : Option (List Char) :=
  let cs := match cs with
    | '-' :: rest => rest
    | r => r
  match cs.dropWhile Char.isDigit, cs with
  | _, [] => Option.none
  | rest, c :: _ =>
      if !c.isDigit then Option.none
      else
        let rest :=
          match rest with
          | '.' :: d :: more => if d.isDigit then (d :: more).dropWhile Char.isDigit else '.' :: d :: more
          | r => r
        match rest with
        | 'e' :: more => jsonExponent more
        | 'E' :: more => jsonExponent more
        | r => some r
where
  jsonExponent (cs : List Char) : Option (List Char) :=
    let cs := match cs with
      | '+' :: rest => rest
      | '-' :: rest => rest
      | r => r
    match cs with
    | c :: _ => if c.isDigit then some (cs.dropWhile Char.isDigit) else Option.none
    | [] => Option.none

mutual

/-- Modelled from the spec (§6: "A JSON parser: given text, either
succeeds (discarding the parsed value) or raises/fails"): consume one
JSON value, returning the unconsumed remainder.  Fuel bounds the nesting
depth (each level consumes at least one bracket, so `length + 1` fuel at
the top is always enough). -/
def jsonVal (fuel : Nat) (cs : List Char) : Option (List Char) :=
  match fuel with
  | 0 => Option.none
  | fuel + 1 =>
      match jsonSkipWs cs with
      | 'n' :: 'u' :: 'l' :: 'l' :: rest => some rest
      | 't' :: 'r' :: 'u' :: 'e' :: rest => some rest
      | 'f' :: 'a' :: 'l' :: 's' :: 'e' :: rest => some rest
      | '"' :: rest => jsonStringBody rest
      | '[' :: rest => jsonArrayItems fuel (jsonSkipWs rest) true
      | '\x7b' :: rest => jsonObjectItems fuel (jsonSkipWs rest) true
      | rest => jsonNumber rest

/-- Items of a JSON array after `[` (`first` marks the position before
any element). -/
def jsonArrayItems (fuel : Nat) (cs : List Char) (first : Bool) :
    Option (List Char) :=
  match fuel with
  | 0 => Option.none
  | fuel + 1 =>
      match cs, first with
      | ']' :: rest, true => some rest
      | _, _ => do
          let rest ← jsonVal fuel cs
          match jsonSkipWs rest with
          | ',' :: more => jsonArrayItems fuel (jsonSkipWs more) false
          | ']' :: more => some more
          | _ => Option.none

/-- Members of a JSON object after the opening brace. -/
def jsonObjectItems (fuel : Nat) (cs : List Char) (first : Bool) :
    Option (List Char) :=
  match fuel with
  | 0 => Option.none
  | fuel + 1 =>
      match cs, first with
      | '\x7d' :: rest, true => some rest
      | '"' :: rest, _ => do
          let afterKey ← jsonStringBody rest
          match jsonSkipWs afterKey with
          | ':' :: more => do
              let afterVal ← jsonVal fuel (jsonSkipWs more)
              match jsonSkipWs afterVal with
              | ',' :: next => jsonObjectItems fuel (jsonSkipWs next) false
              | '\x7d' :: next => some next
              | _ => Option.none
          | _ => Option.none
      | _, _ => Option.none

end

/-- Whether a string is valid JSON text. -/
def jsonValid (s : String) : Bool :=
  match jsonVal (s.length + 1) s.toList with
  | some rest => (jsonSkipWs rest).isEmpty
  | Option.none => false

/-- `is_json(value)` (source lines 578-593): `json.loads` under
`try/except Exception` — a parse failure or a non-text argument
(`TypeError`) yields `False`; the function never raises. -/
def is_json : Val → Bool
  | .str s => jsonValid s
  | _ => false

/-- Modelled from the spec (utilities `itercallback`, §4.1, not under
`src/`): pair iteration decorated with the result of the (already
normalized, 3-argument) callback; `reverse` is a true reversal of the
forward order. -/
def itercallbackP (obj : Val) (cb : Val → PKey → Val → Val)
    (reverse : Bool) : Option (List (Val × PKey × Val)) :=
  (iteratorP obj).map (fun pairs =>
    (if reverse then pairs.reverse else pairs).map
      (fun p => (cb p.2 p.1 obj, p.1, p.2)))

/-- `find_key(obj, callback)` (source lines 208-228): the key of the
first pair, in forward iteration order, whose callback result is truthy;
the implicit `None` when the loop falls through.  The outer `Option` is
the host-error channel (non-iterable input). -/
def find_key (obj : Val) (cb : Val → PKey → Val → Val) :
    Option (Option PKey) :=
  (itercallbackP obj cb false).map (fun l =>
    (l.find? (fun t => t.1.truthy)).map (fun t => t.2.1))

/-- `find_last_key` (source line 231): a plain alias of `find_key`. -/
def find_last_key (obj : Val) (cb : Val → PKey → Val → Val) :
    Option (Option PKey) :=
  find_key obj cb

/-- A value used as a dict key, as `invert` requires.  The hashable key
values of this universe are its integers and strings (spec §3: "any
hashable value (practically strings)"); an unhashable value is a host
`TypeError`. -/
def valToKey : Val → Option PKey
  | .int n => some (.kI n)
  | .str s => some (.kS s)
  | _ => Option.none

/-- A dict key read back as a value. -/
def keyToVal : PKey → Val
  | .kI n => .int n
  | .kS s => .str s

/-- The dict comprehension of `invert`: later pairs win on value
collisions, exactly as `dict((value, key) ...)` behaves. -/
def invertFold (acc : List (PKey × Val)) :
    List (PKey × Val) → Option Val
  | [] => some (.dict acc)
  | (k, v) :: rest =>
      match valToKey v with
      | some k' => invertFold (dictSet acc k' (keyToVal k)) rest
      | Option.none => Option.none

/-- `invert(obj)` (source lines 324-339):
`dict((value, key) for key, value in iterator(obj))`. -/
def invert (obj : Val) : Option Val :=
  match iteratorP obj with
  | some pairs => invertFold [] pairs
  | Option.none => Option.none

/-- A positional argument of `assign`: either a source object or a
callable (Python functions and dicts share the `*sources` tuple). -/
inductive ASource where
  | obj (v : Val)
  | fn (f : Val → Val → Val)

/-- The per-pair store of `assign` (lines 125-128):
`obj[key] = value if callback is None else callback(obj.get(key), value)`.
The destination must be a mapping (`obj.get`). -/
def assignPairs (cb : Option (Val → Val → Val)) (obj : Val) :
    List (PKey × Val) → Option Val
  | [] => some obj
  | (k, v) :: rest =>
      match obj with
      | .dict xs =>
          let newV :=
            match cb with
            | Option.none => v
            | some f => f ((dictGet xs k).getD .none) v
          assignPairs cb (.dict (dictSet xs k newV)) rest
      | _ => Option.none

/-- `assign`'s outer loop over the (post-pop) sources; `iteritems` on a
callable or a non-mapping is a host error. -/
def assignSources (cb : Option (Val → Val → Val)) (obj : Val) :
    List ASource → Option Val
  | [] => some obj
  | .fn _ :: _ => Option.none
  | .obj s :: rest =>
      match s with
      | .dict xs => do
          let obj' ← assignPairs cb obj xs
          assignSources cb obj' rest
      | _ => Option.none

/-- `assign(obj, *sources, **kargs)` (source lines 98-130): when no
`callback` keyword is supplied and the last positional source is
callable, it is popped off the source list and becomes the callback
(`sources[-1]` on an empty list is an `IndexError`, the outer
`Option.none`). -/
def assign (obj : Val) (sources : List ASource)
    (cbKw : Option (Val → Val → Val)) : Option Val :=
  match cbKw with
  | some f => assignSources (some f) obj sources
  | Option.none =>
      match sources.getLast? with
      | Option.none => Option.none
      | some (.fn f) => assignSources (some f) obj sources.dropLast
      | some (.obj _) => assignSources Option.none obj sources

/-! ## Heap model

Python's containers are heap objects passed by reference; claims about
in-place mutation and aliasing need this explicit.  A `PyVal` is an
immediate value (immutable scalars plus references); a `Heap` maps
addresses (list indices) to container nodes.  `reify` reads a value back
into the pure universe `Val`, with fuel because heaps may be cyclic. -/

/-- Heap addresses. -/
abbrev Addr := Nat

/-- Immediate Python values: immutable scalars and references to heap
containers. -/
inductive PyVal where
  | none
  | bool (b : Bool)
  | int (n : Int)
  | str (s : String)
  | ref (a : Addr)
deriving DecidableEq

/-- A heap container node: a list of immediates or an insertion-ordered
dict of immediates. -/
inductive PyNode where
  | list (xs : List PyVal)
  | dict (xs : List (PKey × PyVal))
deriving DecidableEq

/-- The heap: node at address `a` is entry `a`. -/
abbrev Heap := List PyNode

/-- Association-list lookup on a dict node. -/
def dictGetH (xs : List (PKey × PyVal)) (k : PKey) : Option PyVal :=
  (xs.find? (fun p => p.1 == k)).map Prod.snd

/-- `d[key] = value` on a dict node. -/
def dictSetH (xs : List (PKey × PyVal)) (k : PKey) (v : PyVal) :
    List (PKey × PyVal) :=
  match xs with
  | [] => [(k, v)]
  | (k', v') :: rest =>
      if k' = k then (k', v) :: rest else (k', v') :: dictSetH rest k v

/-- Map a fallible reader over list-node elements. -/
def reifySeq (f : PyVal → Option Val) : List PyVal → Option (List Val)
  | [] => some []
  | x :: xs => do
      let v ← f x
      let vs ← reifySeq f xs
      pure (v :: vs)

/-- Map a fallible reader over dict-node items. -/
def reifyPairsSeq (f : PyVal → Option Val) :
    List (PKey × PyVal) → Option (List (PKey × Val))
  | [] => some []
  | (k, x) :: xs => do
      let v ← f x
      let vs ← reifyPairsSeq f xs
      pure ((k, v) :: vs)

/-- Read a heap value back as a pure structural `Val`; fuel bounds the
dereferencing depth (a cyclic object reifies to `Option.none` at every
fuel).  Structurally recursive on the fuel so that concrete executions
reduce. -/
def reify : Nat → Heap → PyVal → Option Val
  | _, _, .none => some .none
  | _, _, .bool b => some (.bool b)
  | _, _, .int n => some (.int n)
  | _, _, .str s => some (.str s)
  | 0, _, .ref _ => Option.none
  | fuel + 1, h, .ref a =>
      match h.get? a with
      | some (.list xs) => (reifySeq (fun x => reify fuel h x) xs).map .list
      | some (.dict xs) =>
          (reifyPairsSeq (fun x => reify fuel h x) xs).map .dict
      | Option.none => Option.none

/-- Python truthiness of an immediate (references deref to the node's
emptiness; a dangling reference is never truthy). -/
def truthyH (h : Heap) : PyVal → Bool
  | .none => false
  | .bool b => b
  | .int n => n != 0
  | .str s => s != ""
  | .ref a =>
      match h.get? a with
      | some (.list xs) => !xs.isEmpty
      | some (.dict xs) => !xs.isEmpty
      | Option.none => false

/-- `isinstance(v, list)` in the heap. -/
def isListH (h : Heap) : PyVal → Bool
  | .ref a =>
      match h.get? a with
      | some (.list _) => true
      | _ => false
  | _ => false

/-- `isinstance(v, dict)` in the heap. -/
def isDictH (h : Heap) : PyVal → Bool
  | .ref a =>
      match h.get? a with
      | some (.dict _) => true
      | _ => false
  | _ => false

/-- Modelled from the spec (utilities `iterator`, §4.1): the (key, value)
pairs of a container node; non-containers are not iterable. -/
def iteratorH (h : Heap) : PyVal → Option (List (PKey × PyVal))
  | .ref a =>
      match h.get? a with
      | some (.list xs) => some (xs.enum.map (fun p => (PKey.kI p.1, p.2)))
      | some (.dict xs) => some xs
      | Option.none => Option.none
  | _ => Option.none

/-- Modelled from the spec (utilities `get_item` with `default=None`):
safe indexed read defaulting to `None`. -/
def getItemH (h : Heap) (v : PyVal) (k : PKey) : PyVal :=
  match v with
  | .ref a =>
      match h.get? a, k with
      | some (.dict xs), _ => (dictGetH xs k).getD .none
      | some (.list xs), .kI i =>
          if hlt : 0 ≤ i ∧ i.toNat < xs.length then xs.get ⟨i.toNat, hlt.2⟩
          else .none
      | _, _ => .none
  | _ => .none

/-- Modelled from the spec (utilities `set_item`, same semantics as the
pure `setItemP`): store at a key of the referenced node, appending at the
next free sequence index, skipping present keys when `allowOverride` is
off, and failing (host error) on anything else. -/
def setItemH (h : Heap) (t : PyVal) (k : PKey) (x : PyVal)
    (allowOverride : Bool) : Option Heap :=
  match t with
  | .ref a =>
      match h.get? a, k with
      | some (.dict xs), _ =>
          if allowOverride || (dictGetH xs k).isNone then
            some (h.set a (.dict (dictSetH xs k x)))
          else some h
      | some (.list xs), .kI i =>
          if 0 ≤ i ∧ i.toNat < xs.length then
            if allowOverride then some (h.set a (.list (xs.set i.toNat x)))
            else some h
          else if i = xs.length then some (h.set a (.list (xs ++ [x])))
          else Option.none
      | _, _ => Option.none
  | _ => Option.none

/-- The family test of `merge` in the heap (lines 905-910): only the
source value's truthiness is consulted. -/
def mergeFamiliesH (h : Heap) (ov sv : PyVal) : Bool :=
  (truthyH h sv && isListH h sv && isListH h ov) ||
  (truthyH h sv && isDictH h sv && isDictH h ov)

/-- The body of `merge`'s key loop (lines 903-919) for one (key, value)
pair of a source, abstracted over the recursive `merge(obj_value,
src_value)` call (`recur`) so that one definition serves both the
top-level and the recursive entry: look up the destination value, pick
the stored result (recursive merge when the family test passes and no
callback, else the callback's value, else the source value), and
`set_item` it. -/
def mergeStepH (recur : Heap → PyVal → PyVal → Option Heap)
    (cb : Option (PyVal → PyVal → PyVal)) (d : PyVal) (h : Heap)
    (p : PKey × PyVal) : Option Heap := do
  let ov := getItemH h d p.1
  let step : Option (Heap × PyVal) :=
    if mergeFamiliesH h ov p.2 && cb.isNone then
      (recur h ov p.2).map (fun h' => (h', ov))
    else
      match cb with
      | some f => some (h, f ov p.2)
      | Option.none => some (h, p.2)
  let (h', res) ← step
  setItemH h' d p.1 res true

/-- State-threading loop over a source's pairs. -/
def mergeLoop (step : Heap → (PKey × PyVal) → Option Heap) :
    Heap → List (PKey × PyVal) → Option Heap
  | h, [] => some h
  | h, p :: rest => do
      let h' ← step h p
      mergeLoop step h' rest

/-- The recursive callback-free call `merge(obj_value, src_value)` of the
source (line 913) as a heap transformer.  The returned heap reflects the
in-place mutation of the destination node; the result value of the
Python call is `d` itself (mutated in place), which the caller stores
back.  Fuel bounds the recursion depth (the source recurses unboundedly
on cyclic inputs, spec §5); structurally recursive on the fuel so that
concrete executions reduce. -/
def mergeObjSrcH : Nat → Heap → PyVal → PyVal → Option Heap
  | 0, _, _, _ => Option.none
  | fuel + 1, h, d, s => do
      let pairs ← iteratorH h s
      mergeLoop (mergeStepH (mergeObjSrcH fuel) Option.none d) h pairs

/-- One source's key loop of `merge` over already extracted pairs, with
the optional callback (modelled as a heap-pure function of the two
immediates). -/
def mergePairsH (fuel : Nat) (cb : Option (PyVal → PyVal → PyVal))
    (h : Heap) (d : PyVal) (pairs : List (PKey × PyVal)) : Option Heap :=
  mergeLoop (mergeStepH (mergeObjSrcH fuel) cb d) h pairs

/-- Top-level `merge(obj, *sources, callback=callback)` (lines 874-921)
in the heap: fold the sources left to right. -/
def mergeH (fuel : Nat) (cb : Option (PyVal → PyVal → PyVal)) (h : Heap)
    (obj : PyVal) : List PyVal → Option Heap
  | [] => some h
  | s :: rest => do
      let pairs ← iteratorH h s
      let h' ← mergePairsH fuel cb h obj pairs
      mergeH fuel cb h' obj rest

/-- Copy each element of a list node through a state-threading copier. -/
def copySeq (f : Heap → PyVal → Option (Heap × PyVal)) :
    Heap → List PyVal → Option (Heap × List PyVal)
  | h, [] => some (h, [])
  | h, x :: xs => do
      let (h', y) ← f h x
      let (h'', ys) ← copySeq f h' xs
      pure (h'', y :: ys)

/-- Copy each item of a dict node through a state-threading copier. -/
def copyPairsSeq (f : Heap → PyVal → Option (Heap × PyVal)) :
    Heap → List (PKey × PyVal) → Option (Heap × List (PKey × PyVal))
  | h, [] => some (h, [])
  | h, (k, x) :: xs => do
      let (h', y) ← f h x
      let (h'', ys) ← copyPairsSeq f h' xs
      pure (h'', (k, y) :: ys)

/-- Modelled from the host's `copy.deepcopy` (spec §6: "A deep-copy
primitive: given any container, returns a fully independent recursive
copy"): allocates a fresh node for every reachable container, copying
scalars through.  Fuel bounds the depth; structurally recursive on the
fuel so that concrete executions reduce. -/
def deepCopyV : Nat → Heap → PyVal → Option (Heap × PyVal)
  | _, h, .none => some (h, .none)
  | _, h, .bool b => some (h, .bool b)
  | _, h, .int n => some (h, .int n)
  | _, h, .str s => some (h, .str s)
  | 0, _, .ref _ => Option.none
  | fuel + 1, h, .ref a =>
      match h.get? a with
      | some (.list xs) => do
          let (h', ys) ← copySeq (deepCopyV fuel) h xs
          pure (h' ++ [PyNode.list ys], PyVal.ref h'.length)
      | some (.dict xs) => do
          let (h', ys) ← copyPairsSeq (deepCopyV fuel) h xs
          pure (h' ++ [PyNode.dict ys], PyVal.ref h'.length)
      | Option.none => Option.none

/-- `clone_deep(value)` = `clone(value, is_deep=True)` (source lines
136-183): `copy.deepcopy` followed by a shallow rebuild of the top-level
container from its iterated pairs (the identity callback).  A
non-container is not iterable, a host `TypeError`. -/
def clone_deepH (fuel : Nat) (h : Heap) (v : PyVal) :
    Option (Heap × PyVal) := do
  let (h₁, v₁) ← deepCopyV fuel h v
  match v₁ with
  | .ref a =>
      match h₁.get? a with
      | some (.list xs) => pure (h₁ ++ [PyNode.list xs], PyVal.ref h₁.length)
      | some (.dict xs) => pure (h₁ ++ [PyNode.dict xs], PyVal.ref h₁.length)
      | Option.none => Option.none
  | _ => Option.none

/-- The auto-vivification loop of `update_path` (lines 1131-1133): for
every key but the last, `set_item` a deep copy of the default without
overriding, then descend. -/
def updateLoopH (fuel : Nat) (defaultV : PyVal) :
    Heap → PyVal → List PKey → Option (Heap × PyVal)
  | h, target, [] => some (h, target)
  | h, target, k :: rest => do
      let (h₁, dcopy) ← clone_deepH fuel h defaultV
      let h₂ ← setItemH h₁ target k dcopy false
      updateLoopH fuel defaultV h₂ (getItemH h₂ target k) rest

/-- `update_path(obj, callback, keys, default=None)` (source lines
1101-1139) in the heap: normalize the default (`{}` if `obj` is a dict
else `[]`, allocated once, lines 1121-1122), deep-copy `obj`, run the
auto-vivification loop over all keys but the last, then store
`callback(get_item(target, last_key, default=None))` at the last key.
Paths are already key lists (a scalar path is coerced upstream, line
1124-1125); the empty path is outside the spec's notion of a Path
(glossary) and is modelled as a host error. -/
def update_pathH (fuel : Nat) (h : Heap) (obj : PyVal)
    (cb : PyVal → PyVal) (keys : List PKey) (dflt : Option PyVal) :
    Option (Heap × PyVal) :=
  let hd : Heap × PyVal :=
    match dflt with
    | some d => (h, d)
    | Option.none =>
        if isDictH h obj then (h ++ [PyNode.dict []], PyVal.ref h.length)
        else (h ++ [PyNode.list []], PyVal.ref h.length)
  match keys.getLast? with
  | Option.none => Option.none
  | some lastK => do
      let (h₁, obj') ← clone_deepH fuel hd.1 obj
      let (h₂, target) ← updateLoopH fuel hd.2 h₁ obj' keys.dropLast
      let old := getItemH h₂ target lastK
      let h₃ ← setItemH h₂ target lastK (cb old) true
      pure (h₃, obj')

/-- `set_path(obj, value, keys, default=None)` (source lines 1048-1065):
`update_path` with a callback that ignores its argument and returns
`value`. -/
def set_pathH (fuel : Nat) (h : Heap) (obj : PyVal) (value : PyVal)
    (keys : List PKey) (dflt : Option PyVal) : Option (Heap × PyVal) :=
  update_pathH fuel h obj (fun _ => value) keys dflt

/-! ## Claim C3: `parse_int` -/

/-- Claim C3, counterexample: the claim (and spec §8) state
`parse_int('abc') is None`, but `'abc'` is a valid base-16 numeral
(`int('abc', 16) == 2748`), so the no-radix hex sniff of lines 980-987
selects radix 16 and the call returns 2748, not `None`.  (Spec §4.4
itself documents that the hex sniff "checks convertibility, not a '0x'
prefix"; §8's example contradicts that.) -/
theorem parse_int_abc_not_none :
    parse_int (.str "abc") Option.none = some 2748 ∧
    parse_int (.str "abc") Option.none ≠ Option.none := by
  exact ⟨by decide, by decide⟩

/-- Claim C3 (amended): `parse_int('0xFF') = 255`, `parse_int('10', 2) =
2`, and `parse_int('abc') = 2748` (not `None`: any text convertible in
base 16 counts as hexadecimal); in general `parse_int` totally returns
the parsed integer or `None` (the `Option Int` result of the embedding —
the `try/except` of lines 992-999 swallows conversion errors), and with
no radix a textual value that parses as base 16 is converted with radix
16, else radix 10. -/
theorem parse_int_spec :
    parse_int (.str "0xFF") Option.none = some 255 ∧
    parse_int (.str "10") (some 2) = some 2 ∧
    parse_int (.str "abc") Option.none = some 2748 ∧
    ∀ s : String,
      parse_int (.str s) Option.none =
        match pyIntOfString s 16 with
        | some n => some n
        | Option.none => pyIntOfString s 10 := by
  refine ⟨by decide, by decide, by decide, ?_⟩
  intro s
  unfold parse_int
  cases hx : pyIntOfString s 16 with
  | some n => simp [is_string, hx, pyStrOfVal]
  | none => simp [is_string, hx, pyIntOfVal]

/-! ## Claim C4: `is_equal` -/

/-- Claim C4, the code bug: with a comparator that abstains (returns
`None`) on two empty containers of the same kind, the element-wise walk
of lines 448-456 never executes, `equal` keeps the comparator's `None`,
and `is_equal` returns `None` — falsy and not a boolean — although the
docstring promises `bool` and the claim (and an equality check on two
equal empty lists) demands `True`.  Without a comparator the same pair
correctly yields `True` via native `==`. -/
theorem is_equal_empty_containers_returns_none :
    is_equal (some (fun _ _ => Val.none)) (.list []) (.list []) = Val.none ∧
    is_equal (some (fun _ _ => Val.none)) (.dict []) (.dict []) = Val.none ∧
    Val.none ≠ Val.bool true ∧
    Val.truthy Val.none = false ∧
    is_equal Option.none (.list []) (.list []) = Val.bool true := by
  exact ⟨rfl, rfl, by decide, rfl, rfl⟩

/-! ## Claim C7: totality of the predicate family -/

/-- Claim C7, counterexample: the claim's clause "unexpected or
wrong-kind input yields false" fails for the monotonicity family —
`is_increasing(5)` wraps the non-list into the singleton `[5]`
(lines 622-623) and returns `True`, not `False`. -/
theorem is_increasing_non_list_is_true :
    is_increasing (.int 5) = true ∧ is_list (.int 5) = false := by
  exact ⟨rfl, rfl⟩

/-- Claim C7 (amended): every predicate of the family is total — a
`Bool`-valued Lean function over arbitrary values of the universe, which
is the embedding of "always returns a boolean and never raises" (the
comparison operator and JSON parser are modelled as total hosts) — and
wrong-kind input yields false for the kind checks and `is_json`, while
the monotonicity family treats a non-sequence as a singleton sequence
and therefore yields *true* on wrong-kind input; `is_empty` is true
exactly for booleans, numbers, and falsy values. -/
theorem predicates_total :
    (∀ (v : Val) (op : Val → Val → Bool),
       is_list v = false → is_monotone v op = true) ∧
    (∀ v : Val, is_string v = false → is_json v = false) ∧
    (∀ v : Val, (∀ n : Int, v ≠ .int n) → is_number v = false) ∧
    (∀ v : Val,
       is_empty v = (is_boolean v || is_number v || !v.truthy)) ∧
    (∀ v : Val,
       is_increasing v = is_monotone v pyLe ∧
       is_decreasing v = is_monotone v pyGe ∧
       is_strictly_increasing v = is_monotone v pyLt ∧
       is_strictly_decreasing v = is_monotone v pyGt) := by
  refine ⟨?_, ?_, ?_, fun v => rfl, fun v => ⟨rfl, rfl, rfl, rfl⟩⟩
  · intro v op hv
    simp [is_monotone, hv, monoScan]
  · intro v hv
    cases v <;> simp_all [is_json, is_string]
  · intro v hv
    cases v <;> simp_all [is_number]

/-- Claim C7, witness: the amended theorem applied at concrete
wrong-kind inputs. -/
theorem predicates_total_witness :
    is_list (.str "ab") = false ∧ is_monotone (.str "ab") pyLe = true ∧
    is_string (.int 3) = false ∧ is_json (.int 3) = false ∧
    is_number (.str "q") = false :=
  ⟨rfl, predicates_total.1 _ pyLe rfl, rfl,
   predicates_total.2.1 _ rfl,
   predicates_total.2.2.1 _ (fun _ h => Val.noConfusion h)⟩

/-! ## Claim C8: `find_last_key` -/

/-- Claim C8, counterexample: `find_last_key` is a plain alias of
`find_key` (line 231), so with an always-true callback on `[10, 20]` it
returns the key `0` — the first key in *forward* order — while the claim
demands the first key in reverse order (equivalently the last forward
matching key), which is `1`. -/
theorem find_last_key_searches_forward :
    find_last_key (.list [.int 10, .int 20]) (fun _ _ _ => .bool true) =
      some (some (.kI 0)) ∧
    (some (some (PKey.kI 0)) : Option (Option PKey)) ≠ some (some (.kI 1)) := by
  exact ⟨rfl, by decide⟩

/-- Claim C8 (amended): `find_last_key` is an alias of `find_key`; both
return the first key in *forward* iteration order for which the
(normalized) callback's result is truthy, and `None` when no pair
matches (the `find?` characterization below covers both outcomes). -/
theorem find_last_key_is_find_key :
    (∀ (obj : Val) (cb : Val → PKey → Val → Val),
       find_last_key obj cb = find_key obj cb) ∧
    (∀ (obj : Val) (cb : Val → PKey → Val → Val)
       (pairs : List (PKey × Val)),
       iteratorP obj = some pairs →
       find_key obj cb =
         some ((pairs.find? (fun p => (cb p.2 p.1 obj).truthy)).map
           Prod.fst)) := by
  constructor
  · intro obj cb
    rfl
  · intro obj cb pairs hit
    unfold find_key itercallbackP
    rw [hit]
    simp [List.find?_map, Option.map_map]
    rfl

/-- Claim C8, witness: the amended theorem applied at concrete inputs,
both with a match and with none. -/
theorem find_last_key_is_find_key_witness :
    find_last_key (.list [.int 10, .int 20]) (fun v _ _ => v) =
      find_key (.list [.int 10, .int 20]) (fun v _ _ => v) ∧
    find_key (.dict []) (fun v _ _ => v) = some Option.none := by
  refine ⟨find_last_key_is_find_key.1 _ _, ?_⟩
  have h := find_last_key_is_find_key.2 (.dict []) (fun v _ _ => v) [] rfl
  simpa using h

/-! ## Claim C10: `assign` pops a trailing callable source -/

/-- Claim C10: when no `callback` keyword is given and the last
positional source is callable, `assign` pops it off the source list and
uses it as the callback (lines 122-123) — its pairs are never iterated,
only the remaining sources are — and every key of the remaining sources
is stored as `dest[key] = callback(dest.get(key), value)`
(lines 125-128). -/
theorem assign_pops_trailing_callable :
    (∀ (obj : Val) (srcs : List ASource) (f : Val → Val → Val),
       assign obj (srcs ++ [ASource.fn f]) Option.none =
         assignSources (some f) obj srcs) ∧
    (∀ (f : Val → Val → Val) (xs : List (PKey × Val)) (k : PKey) (v : Val)
       (rest : List (PKey × Val)),
       assignPairs (some f) (.dict xs) ((k, v) :: rest) =
         assignPairs (some f)
           (.dict (dictSet xs k (f ((dictGet xs k).getD .none) v))) rest) := by
  constructor
  · intro obj srcs f
    unfold assign
    rw [List.getLast?_concat, List.dropLast_concat]
  · intro f xs k v rest
    rfl

/-! ## Claim C1: `merge` and its sources -/

/-- The initial heap of the mutation scenario: destination `{}` at
address 0, first source `{'a': {'x': 1}}` at addresses 1-2, second
source `{'a': {'y': 2}}` at addresses 3-4. -/
def mergeScenarioHeap : Heap :=
  [.dict [], .dict [(.kS "a", .ref 2)], .dict [(.kS "x", .int 1)],
   .dict [(.kS "a", .ref 4)], .dict [(.kS "y", .int 2)]]

/-- Claim C1, the code bug: `merge({}, s1, s2)` with
`s1 = {'a': {'x': 1}}` and `s2 = {'a': {'y': 2}}` stores `s1`'s nested
dict into the destination *by reference* (overwrite branch, line 917),
and then the second source's pass recursively merges `{'y': 2}` into
that very object (line 913), mutating the first source in place to
`{'a': {'x': 1, 'y': 2}}` — the claim (and spec §3's invariant) says
every source is structurally unchanged.  The last source `s2` is
untouched. -/
theorem merge_mutates_earlier_source :
    reify 9 mergeScenarioHeap (.ref 1) =
      some (.dict [(.kS "a", .dict [(.kS "x", .int 1)])]) ∧
    (mergeH 9 Option.none mergeScenarioHeap (.ref 0) [.ref 1, .ref 3]).bind
        (fun h' => reify 9 h' (.ref 1)) =
      some (.dict [(.kS "a", .dict [(.kS "x", .int 1), (.kS "y", .int 2)])]) ∧
    (mergeH 9 Option.none mergeScenarioHeap (.ref 0) [.ref 1, .ref 3]).bind
        (fun h' => reify 9 h' (.ref 3)) =
      some (.dict [(.kS "a", .dict [(.kS "y", .int 2)])]) ∧
    some (Val.dict [(.kS "a", .dict [(.kS "x", .int 1)])]) ≠
      some (Val.dict [(.kS "a", .dict [(.kS "x", .int 1), (.kS "y", .int 2)])]) := by
  exact ⟨by decide, by decide, by decide, by decide⟩

/-! ## Claim C2: the per-key semantics of `merge` -/

/-- The claim's per-key condition, following the claim's words ("both
the existing destination value and the incoming source value are
non-empty containers of the same family") — to be compared with the
source-derived `mergeFamilies`, which does not test the destination's
truthiness. -/
def bothNonEmptySameFamily (ov sv : Val) : Bool :=
  (ov.truthy && sv.truthy && is_list ov && is_list sv) ||
  (ov.truthy && sv.truthy && is_plain_object ov && is_plain_object sv)

/-- The claim's per-key stored result, following the claim's words — to
be compared with the source-derived `mergeResult`. -/
def specMergeResult (cb : Option (Val → Val → Val)) (ov sv : Val) :
    Option Val :=
  if cb.isNone && bothNonEmptySameFamily ov sv then mergeVal ov sv
  else
    match cb with
    | some f => some (f ov sv)
    | Option.none => some sv

/-- Whether the top-level keys of a dict value are unique — the
invariant every Python dict enjoys, assumed of source values. -/
def dictKeysNodup : Val → Bool
  | .dict xs => decide (xs.map Prod.fst).Nodup
  | _ => true

/-- A dict lookup misses exactly when no pair carries the key. -/
theorem dictGet_eq_none (xs : List (PKey × Val)) (k : PKey) :
    dictGet xs k = Option.none ↔ ∀ p ∈ xs, p.1 ≠ k := by
  simp [dictGet, List.find?_eq_none]

/-- Updating an absent key appends the pair. -/
theorem dictSet_of_not_mem (xs : List (PKey × Val)) (k : PKey) (v : Val)
    (hk : dictGet xs k = Option.none) :
    dictSet xs k v = xs ++ [(k, v)] := by
  rw [dictGet_eq_none] at hk
  induction xs with
  | nil => rfl
  | cons p rest ih =>
      obtain ⟨k', v'⟩ := p
      have hne : k' ≠ k := hk (k', v') (by simp)
      simp [dictSet, hne, ih (fun q hq => hk q (by simp [hq]))]

/-- Lookup misses an appended pair with a different key. -/
theorem dictGet_append_single (xs : List (PKey × Val)) (k k' : PKey)
    (v : Val) (hk : dictGet xs k' = Option.none) (hne : k ≠ k') :
    dictGet (xs ++ [(k, v)]) k' = Option.none := by
  rw [dictGet_eq_none] at hk ⊢
  intro p hp
  rcases List.mem_append.mp hp with h | h
  · exact hk p h
  · simp at h
    subst h
    exact hne

/-- Merging a dict source into a dict destination none of whose keys
occur in the source appends all the source's pairs verbatim. -/
theorem mergeValDict_all_new (xs : List (PKey × Val)) :
    ∀ acc : List (PKey × Val),
      (∀ p ∈ xs, dictGet acc p.1 = Option.none) →
      (xs.map Prod.fst).Nodup →
      mergeValDict (.dict acc) xs = some (.dict (acc ++ xs)) := by
  induction xs with
  | nil =>
      intro acc _ _
      simp [mergeValDict]
  | cons p rest ih =>
      intro acc hmiss hnd
      obtain ⟨k, sv⟩ := p
      have hk : dictGet acc k = Option.none := hmiss (k, sv) (by simp)
      have hov : getItemD (.dict acc) k .none = Val.none := by
        simp [getItemD, hk]
      have hfam : mergeFamilies Val.none sv = false := by
        simp [mergeFamilies, is_list, is_plain_object]
      have hset : setItemP (.dict acc) k sv true =
          some (.dict (acc ++ [(k, sv)])) := by
        simp [setItemP, dictSet_of_not_mem acc k sv hk]
      simp only [List.map_cons, List.nodup_cons] at hnd
      have hrest : mergeValDict (.dict (acc ++ [(k, sv)])) rest =
          some (.dict ((acc ++ [(k, sv)]) ++ rest)) := by
        apply ih
        · intro q hq
          refine dictGet_append_single acc k q.1 sv (hmiss q (by simp [hq])) ?_
          intro hkq
          exact hnd.1 (hkq ▸ List.mem_map_of_mem Prod.fst hq)
        · exact hnd.2
      simp [mergeValDict, hov, hfam, hset, hrest]

/-- Merging a list source past the end of the destination appends each
element verbatim. -/
theorem mergeValList_append (xs : List Val) :
    ∀ acc : List Val,
      mergeValList (.list acc) acc.length xs = some (.list (acc ++ xs)) := by
  induction xs with
  | nil =>
      intro acc
      simp [mergeValList]
  | cons sv rest ih =>
      intro acc
      have hov : getItemD (.list acc) (.kI acc.length) .none = Val.none := by
        simp [getItemD]
      have hfam : mergeFamilies Val.none sv = false := by
        simp [mergeFamilies, is_list, is_plain_object]
      have hset : setItemP (.list acc) (.kI acc.length) sv true =
          some (.list (acc ++ [sv])) := by
        simp [setItemP]
      have hrest := ih (acc ++ [sv])
      rw [List.length_append, List.length_cons, List.length_nil] at hrest
      simp [mergeValList, hov, hfam, hset, hrest]

/-- Claim C2: for each key of each source, the stored result of `merge`
is exactly what the claim describes: with no callback and both values
non-empty containers of the same family, their recursive merge;
otherwise the callback's result when one is supplied; otherwise the
source value overwrites — and sources are processed left to right, keys
in order, so later sources overwrite earlier ones on scalar conflicts.
The source's condition (lines 905-910) tests only the *source* value's
non-emptiness, but on an empty same-family destination the recursive
merge stores the source's contents verbatim (`mergeValDict_all_new`,
`mergeValList_append`), so the two conditions produce the same stored
value; source dicts carry Python's unique-key invariant
(`dictKeysNodup`). -/
theorem merge_per_key_semantics :
    (∀ (cb : Option (Val → Val → Val)) (ov sv : Val),
       dictKeysNodup sv = true →
       mergeResult cb ov sv = specMergeResult cb ov sv) ∧
    (∀ (cb : Option (Val → Val → Val)) (d s : Val) (rest : List Val),
       merge cb d (s :: rest) = do
         let pairs ← iteratorP s
         let d' ← mergeSourcePairs cb d pairs
         merge cb d' rest) ∧
    (∀ (cb : Option (Val → Val → Val)) (d : Val) (k : PKey) (sv : Val)
       (rest : List (PKey × Val)),
       mergeSourcePairs cb d ((k, sv) :: rest) = do
         let res ← mergeResult cb (getItemD d k .none) sv
         let d' ← setItemP d k res true
         mergeSourcePairs cb d' rest) := by
  refine ⟨?_, fun cb d s rest => rfl, fun cb d k sv rest => rfl⟩
  intro cb ov sv hwf
  cases cb with
  | some f => simp [mergeResult, specMergeResult]
  | none =>
      simp only [mergeResult, specMergeResult, Option.isNone_none,
        Bool.and_true, Bool.true_and]
      by_cases hb : bothNonEmptySameFamily ov sv = true
      · have hm : mergeFamilies ov sv = true := by
          simp only [bothNonEmptySameFamily, Bool.or_eq_true,
            Bool.and_eq_true] at hb
          rcases hb with ⟨⟨⟨hot, hst⟩, hol⟩, hsl⟩ | ⟨⟨⟨hot, hst⟩, hod⟩, hsd⟩
          · simp [mergeFamilies, hst, hol, hsl]
          · simp [mergeFamilies, hst, hod, hsd]
        rw [if_pos hm, if_pos hb]
      · by_cases hm : mergeFamilies ov sv = true
        · rw [if_pos hm, if_neg hb]
          simp only [mergeFamilies, Bool.or_eq_true, Bool.and_eq_true] at hm
          rcases hm with ⟨⟨hst, hsl⟩, hol⟩ | ⟨⟨hst, hsd⟩, hod⟩
          · -- both sequences, destination empty
            have hoe : Val.truthy ov = false := by
              by_contra hoc
              apply hb
              simp only [bothNonEmptySameFamily, Bool.or_eq_true,
                Bool.and_eq_true]
              exact Or.inl ⟨⟨⟨Bool.of_not_eq_false hoc, hst⟩, hol⟩, hsl⟩
            cases ov with
            | list l =>
                cases l with
                | nil =>
                    cases sv with
                    | list ys =>
                        have := mergeValList_append ys []
                        simpa [mergeVal] using this
                    | _ => simp [is_list] at hsl
                | cons x xs => simp [Val.truthy] at hoe
            | _ => simp [is_list] at hol
          · -- both mappings, destination empty
            have hoe : Val.truthy ov = false := by
              by_contra hoc
              apply hb
              simp only [bothNonEmptySameFamily, Bool.or_eq_true,
                Bool.and_eq_true]
              exact Or.inr ⟨⟨⟨Bool.of_not_eq_false hoc, hst⟩, hod⟩, hsd⟩
            cases ov with
            | dict l =>
                cases l with
                | nil =>
                    cases sv with
                    | dict ys =>
                        have hnd : (ys.map Prod.fst).Nodup := by
                          simpa [dictKeysNodup] using hwf
                        have := mergeValDict_all_new ys []
                          (by intro p _; simp [dictGet]) hnd
                        simpa [mergeVal] using this
                    | _ => simp [is_plain_object] at hsd
                | cons x xs => simp [Val.truthy] at hoe
            | _ => simp [is_plain_object] at hod
        · rw [if_neg hm, if_neg hb]

/-- Claim C2, witness: the per-key equation applied at a concrete
divergence-sensitive input (empty destination dict, non-empty source
dict), with the unique-keys hypothesis discharged by evaluation. -/
theorem merge_per_key_semantics_witness :
    dictKeysNodup (.dict [(.kS "a", .int 1)]) = true ∧
    mergeResult Option.none (.dict []) (.dict [(.kS "a", .int 1)]) =
      specMergeResult Option.none (.dict []) (.dict [(.kS "a", .int 1)]) :=
  ⟨by decide, merge_per_key_semantics.1 Option.none (.dict [])
    (.dict [(.kS "a", .int 1)]) (by decide)⟩

/-! ## Claim C9: `invert` is an involution -/

/-- Hashable embeddings are injective. -/
theorem valToKey_inj (a b : Val) (k : PKey) (ha : valToKey a = some k)
    (hb : valToKey b = some k) : a = b := by
  cases a <;> simp only [valToKey] at ha <;> cases ha <;>
    cases b <;> simp only [valToKey, Option.some.injEq] at hb <;>
    simp_all

/-- Reading a key back as a value embeds again as the same key. -/
theorem valToKey_keyToVal (k : PKey) : valToKey (keyToVal k) = some k := by
  cases k <;> rfl

/-- Embedding a value as a key and reading it back is the identity. -/
theorem keyToVal_valToKey (v : Val) (k : PKey) (h : valToKey v = some k) :
    keyToVal k = v := by
  cases v <;> simp only [valToKey, Option.some.injEq] at h <;> cases h <;> rfl

/-- The fold of `invert` on pairs whose swapped keys are fresh and
mutually distinct appends the swapped pairs in order. -/
theorem invertFold_eq (xs : List (PKey × Val)) :
    ∀ (acc ys : List (PKey × Val)),
      (∀ p ∈ xs, ∃ k', valToKey p.2 = some k') →
      ys = xs.map (fun p => ((valToKey p.2).getD (.kI 0), keyToVal p.1)) →
      (∀ p ∈ ys, dictGet acc p.1 = Option.none) →
      (ys.map Prod.fst).Nodup →
      invertFold acc xs = some (.dict (acc ++ ys)) := by
  induction xs with
  | nil =>
      intro acc ys _ hys _ _
      subst hys
      simp [invertFold]
  | cons p rest ih =>
      intro acc ys hh hys hmiss hnd
      obtain ⟨k, v⟩ := p
      obtain ⟨k', hk'⟩ := hh (k, v) (by simp)
      subst hys
      simp only [List.map_cons] at hmiss hnd ⊢
      have hget : (valToKey (k, v).2).getD (.kI 0) = k' := by simp [hk']
      rw [hget] at hmiss hnd ⊢
      have hk'miss : dictGet acc k' = Option.none :=
        hmiss (k', keyToVal k) (by simp)
      simp only [invertFold, hk']
      rw [dictSet_of_not_mem acc k' (keyToVal k) hk'miss]
      simp only [List.nodup_cons] at hnd
      rw [ih (acc ++ [(k', keyToVal k)]) _
        (fun q hq => hh q (by simp [hq])) rfl ?_ hnd.2]
      · simp
      · intro q hq
        refine dictGet_append_single acc k' q.1 (keyToVal k)
          (hmiss q (by simp [hq])) ?_
        intro hkq
        exact hnd.1 (hkq ▸ List.mem_map_of_mem Prod.fst hq)


/-- Claim C9: for every mapping whose values are pairwise distinct and
hashable (embeddable as keys: integers or strings in this universe),
inverting twice restores the original mapping — even with its original
pair order, which is stronger than the claimed `==`. -/
theorem invert_involution (xs : List (PKey × Val))
    (hk : (xs.map Prod.fst).Nodup)
    (hv : (xs.map Prod.snd).Nodup)
    (hh : ∀ p ∈ xs, ∃ k', valToKey p.2 = some k') :
    (invert (.dict xs)).bind invert = some (.dict xs) := by
  have hysnd : ∀ p ∈ xs, (valToKey p.2).getD (.kI 0) =
      (fun v => (valToKey v).getD (.kI 0)) p.2 := fun p _ => rfl
  have hnodup1 :
      ((xs.map (fun p => ((valToKey p.2).getD (.kI 0), keyToVal p.1))).map
        Prod.fst).Nodup := by
    rw [List.map_map]
    have heq : (Prod.fst ∘ fun p : PKey × Val =>
        ((valToKey p.2).getD (.kI 0), keyToVal p.1)) =
        ((fun v => (valToKey v).getD (.kI 0)) ∘ Prod.snd) := rfl
    rw [heq, ← List.map_map]
    refine List.Nodup.map_on ?_ hv
    intro a ha b hb hab
    obtain ⟨p, hp, hpa⟩ := List.mem_map.mp ha
    obtain ⟨q, hq, hqb⟩ := List.mem_map.mp hb
    obtain ⟨ka, hka⟩ := hh p hp
    obtain ⟨kb, hkb⟩ := hh q hq
    rw [← hpa, ← hqb] at hab ⊢
    rw [hka, hkb] at hab
    simp only [Option.getD_some] at hab
    exact valToKey_inj p.2 q.2 ka hka (hab ▸ hkb)
  have hys :
      invert (.dict xs) = some (.dict (xs.map
        (fun p => ((valToKey p.2).getD (.kI 0), keyToVal p.1)))) := by
    unfold invert iteratorP
    exact invertFold_eq xs [] _ hh rfl (by simp [dictGet]) hnodup1
  rw [hys, Option.some_bind]
  set ys := xs.map (fun p => ((valToKey p.2).getD (.kI 0), keyToVal p.1))
    with hysdef
  have hback :
      xs = ys.map (fun p => ((valToKey p.2).getD (.kI 0), keyToVal p.1)) := by
    rw [hysdef, List.map_map]
    have : ∀ p ∈ xs, ((fun p : PKey × Val =>
          ((valToKey p.2).getD (.kI 0), keyToVal p.1)) ∘
        (fun p : PKey × Val =>
          ((valToKey p.2).getD (.kI 0), keyToVal p.1))) p = id p := by
      intro p hp
      obtain ⟨kp, hkp⟩ := hh p hp
      simp [valToKey_keyToVal, hkp, keyToVal_valToKey p.2 kp hkp]
    rw [List.map_congr_left this, List.map_id]
  have hhys : ∀ p ∈ ys, ∃ k', valToKey p.2 = some k' := by
    intro p hp
    rw [hysdef] at hp
    obtain ⟨q, _, hq⟩ := List.mem_map.mp hp
    exact ⟨q.1, by rw [← hq]; exact valToKey_keyToVal q.1⟩
  have : invert (.dict ys) = some (.dict ([] ++ xs)) := by
    unfold invert iteratorP
    exact invertFold_eq ys [] xs hhys hback (by simp [dictGet])
      (by simpa using hk)
  simpa using this

/-- Claim C9, witness: the involution applied to a concrete two-pair
mapping with distinct hashable values. -/
theorem invert_involution_witness :
    (invert (.dict [(.kS "a", .int 1), (.kS "b", .str "c")])).bind invert =
      some (.dict [(.kS "a", .int 1), (.kS "b", .str "c")]) :=
  invert_involution _ (by decide) (by decide)
    (by
      intro p hp
      simp only [List.mem_cons, List.not_mem_nil, or_false] at hp
      rcases hp with h | h <;> subst h <;> exact ⟨_, rfl⟩)

/-! ## Claim C5: `update_path`'s auto-vivification defaults -/

/-- The heap of the default-kind scenario: the object `{'a': []}` at
address 0 with its empty list at address 1. -/
def pathScenarioHeap : Heap := [.dict [(.kS "a", .ref 1)], .list []]

/-- Claim C5, counterexample: in
`set_path({'a': []}, 'x', ['a', 0, 1])` the intermediate key `0` is
missing and the current target container at that level is the sequence
`[]`, so the claim demands an empty *sequence* be created there; the
code instead deep-copies the single default computed once from the
*top-level* obj (a dict, hence `{}`, lines 1121-1122), so the created
intermediate container is a mapping and the call returns
`{'a': [{1: 'x'}]}`. -/
theorem update_path_default_from_top_level :
    (set_pathH 20 pathScenarioHeap (.ref 0) (.str "x")
        [.kS "a", .kI 0, .kI 1] Option.none).bind
      (fun r => reify 9 r.1 r.2) =
      some (.dict [(.kS "a", .list [.dict [(.kI 1, .str "x")]])]) ∧
    is_plain_object (.dict [(.kI 1, .str "x")]) = true ∧
    is_list (.dict [(.kI 1, .str "x")]) = false := by
  exact ⟨by decide, rfl, rfl⟩

/-- Claim C5 (amended): for every path key except the last, `update_path`
(and `set_path`) creates a missing intermediate container at that key
from a deep copy of `default` or, when `default` is absent, from an
empty mapping if the *top-level obj* is mapping-like and otherwise an
empty sequence — the same default, fixed once, at every level — never
overriding an already-present value at that key; in particular
`set_path({}, 'x', ['a','b','c'])` returns `{'a': {'b': {'c': 'x'}}}`.
Clauses: the absent-default normalization inspects only the top-level
obj; the loop `set_item`s a deep copy of the default with override off
at every non-final key; override-off writes leave a present key (and the
whole heap) untouched and create absent ones. -/
theorem update_path_vivification :
    (∀ (fuel : Nat) (h : Heap) (obj : PyVal) (cb : PyVal → PyVal)
       (keys : List PKey),
       update_pathH fuel h obj cb keys Option.none =
         if isDictH h obj then
           update_pathH fuel (h ++ [PyNode.dict []]) obj cb keys
             (some (.ref h.length))
         else
           update_pathH fuel (h ++ [PyNode.list []]) obj cb keys
             (some (.ref h.length))) ∧
    (∀ (fuel : Nat) (dV : PyVal) (h : Heap) (t : PyVal) (k : PKey)
       (rest : List PKey),
       updateLoopH fuel dV h t (k :: rest) = do
         let (h₁, dcopy) ← clone_deepH fuel h dV
         let h₂ ← setItemH h₁ t k dcopy false
         updateLoopH fuel dV h₂ (getItemH h₂ t k) rest) ∧
    (∀ (h : Heap) (a : Addr) (xs : List (PKey × PyVal)) (k : PKey)
       (v : PyVal),
       h[a]? = some (.dict xs) →
       (dictGetH xs k).isSome = true →
       setItemH h (.ref a) k v false = some h) ∧
    (∀ (h : Heap) (a : Addr) (xs : List PyVal) (i : Int) (v : PyVal),
       h[a]? = some (.list xs) →
       0 ≤ i → i.toNat < xs.length →
       setItemH h (.ref a) (.kI i) v false = some h) ∧
    (∀ (h : Heap) (a : Addr) (xs : List (PKey × PyVal)) (k : PKey)
       (v : PyVal),
       h[a]? = some (.dict xs) →
       dictGetH xs k = Option.none →
       setItemH h (.ref a) k v false =
         some (h.set a (.dict (dictSetH xs k v)))) ∧
    ((set_pathH 20 [PyNode.dict []] (.ref 0) (.str "x")
        [.kS "a", .kS "b", .kS "c"] Option.none).bind
      (fun r => reify 9 r.1 r.2) =
      some (.dict [(.kS "a",
        .dict [(.kS "b", .dict [(.kS "c", .str "x")])])])) := by
  refine ⟨?_, fun fuel dV h t k rest => rfl, ?_, ?_, ?_, by decide⟩
  · intro fuel h obj cb keys
    by_cases hd : isDictH h obj = true <;> simp [update_pathH, hd]
  · intro h a xs k v hget hsome
    have hne : ¬ dictGetH xs k = Option.none := by
      intro hnone
      rw [hnone] at hsome
      simp at hsome
    simp [setItemH, hget, hne]
  · intro h a xs i v hget h0 hlen
    simp [setItemH, hget, h0, hlen]
  · intro h a xs k v hget hnone
    simp [setItemH, hget, hnone]

/-- Claim C5, witness: the vivification clauses applied at concrete
inputs — a present key is not overridden, an absent one is created. -/
theorem update_path_vivification_witness :
    setItemH [PyNode.dict [(.kS "a", .int 1)]] (.ref 0) (.kS "a")
      (.int 9) false = some [PyNode.dict [(.kS "a", .int 1)]] ∧
    setItemH [PyNode.dict [(.kS "a", .int 1)]] (.ref 0) (.kS "b")
      (.int 9) false =
      some [PyNode.dict [(.kS "a", .int 1), (.kS "b", .int 9)]] := by
  constructor
  · exact update_path_vivification.2.2.1 _ 0 [(.kS "a", .int 1)] _ _
      (by decide) (by decide)
  · exact update_path_vivification.2.2.2.2.1 _ 0 [(.kS "a", .int 1)] _ _
      (by decide) (by decide)

/-! ## Claim C6: `update_path` never mutates its argument

The proof skeleton: `update_path` first deep-copies `obj`; every
subsequent write lands at an address of the fresh region (at or above
the original heap's length), so the entries below it — and with them the
reification of any value of the original heap — are untouched. -/

/-- The refs of an immediate lie below `n`. -/
def valBelow (n : Nat) : PyVal → Bool
  | .ref a => decide (a < n)
  | _ => true

/-- The refs of an immediate lie at or above `n`. -/
def valHi (n : Nat) : PyVal → Bool
  | .ref a => decide (n ≤ a)
  | _ => true

/-- Every ref of a node lies below `n`. -/
def nodeBelow (n : Nat) : PyNode → Bool
  | .list xs => xs.all (valBelow n)
  | .dict xs => xs.all (fun p => valBelow n p.2)

/-- Every ref of a node lies at or above `n`. -/
def nodeHi (n : Nat) : PyNode → Bool
  | .list xs => xs.all (valHi n)
  | .dict xs => xs.all (fun p => valHi n p.2)

/-- A closed heap: every stored ref points into the heap. -/
def heapClosed (h : Heap) : Bool := h.all (nodeBelow h.length)

/-- The region at or above `n` is upward closed: its nodes refer only at
or above `n`. -/
def regionHi (n : Nat) (h : Heap) : Prop :=
  ∀ a node, n ≤ a → h[a]? = some node → nodeHi n node = true

/-- `reifySeq` only looks at its reader on the list's elements. -/
theorem reifySeq_congr (f g : PyVal → Option Val) :
    ∀ xs : List PyVal, (∀ x ∈ xs, f x = g x) →
      reifySeq f xs = reifySeq g xs := by
  intro xs
  induction xs with
  | nil => intro _; rfl
  | cons x rest ih =>
      intro hfg
      simp only [reifySeq, hfg x (by simp), ih (fun y hy => hfg y (by simp [hy]))]

/-- `reifyPairsSeq` only looks at its reader on the items' values. -/
theorem reifyPairsSeq_congr (f g : PyVal → Option Val) :
    ∀ xs : List (PKey × PyVal), (∀ p ∈ xs, f p.2 = g p.2) →
      reifyPairsSeq f xs = reifyPairsSeq g xs := by
  intro xs
  induction xs with
  | nil => intro _; rfl
  | cons p rest ih =>
      intro hfg
      obtain ⟨k, x⟩ := p
      simp only [reifyPairsSeq, hfg (k, x) (by simp),
        ih (fun q hq => hfg q (by simp [hq]))]

/-- Reification reads only the heap below `n` for values whose refs lie
below `n`, provided that region is downward closed; two heaps agreeing
there reify such values identically. -/
theorem reify_agree (n : Nat) (h h' : Heap)
    (hcl : ∀ a node, a < n → h[a]? = some node → nodeBelow n node = true)
    (hag : ∀ a, a < n → h'[a]? = h[a]?) :
    ∀ (fuel : Nat) (v : PyVal), valBelow n v = true →
      reify fuel h' v = reify fuel h v := by
  intro fuel
  induction fuel with
  | zero => intro v _; cases v <;> rfl
  | succ fuel ih =>
      intro v hv
      cases v with
      | ref a =>
          have ha : a < n := by simpa [valBelow] using hv
          simp only [reify, List.get?_eq_getElem?]
          rw [hag a ha]
          cases hnode : h[a]? with
          | none => rfl
          | some node =>
              cases node with
              | list xs =>
                  have hall := hcl a _ ha hnode
                  simp only [nodeBelow, List.all_eq_true] at hall
                  have hc := reifySeq_congr (fun x => reify fuel h' x)
                    (fun x => reify fuel h x) xs (fun x hx => ih x (hall x hx))
                  simp only [hc]
              | dict xs =>
                  have hall := hcl a _ ha hnode
                  simp only [nodeBelow, List.all_eq_true] at hall
                  have hc := reifyPairsSeq_congr (fun x => reify fuel h' x)
                    (fun x => reify fuel h x) xs (fun p hp => ih p.2 (hall p hp))
                  simp only [hc]
      | none => rfl
      | bool b => rfl
      | int m => rfl
      | str s => rfl
/-- A well-behaved copier relative to the boundary `n`: it only appends
to the heap, returns a value whose refs lie at or above `n`, and keeps
the high region upward closed. -/
def GoodCopy (n : Nat) (f : Heap → PyVal → Option (Heap × PyVal)) : Prop :=
  ∀ h v h' v', n ≤ h.length → regionHi n h → f h v = some (h', v') →
    (∃ t, h' = h ++ t) ∧ valHi n v' = true ∧ regionHi n h'

/-- `copySeq` of a well-behaved copier is well-behaved on every element. -/
theorem copySeq_good (n : Nat) (f : Heap → PyVal → Option (Heap × PyVal))
    (hf : GoodCopy n f) :
    ∀ (xs : List PyVal) (h h' : Heap) (ys : List PyVal),
      n ≤ h.length → regionHi n h → copySeq f h xs = some (h', ys) →
      (∃ t, h' = h ++ t) ∧ (∀ y ∈ ys, valHi n y = true) ∧ regionHi n h' := by
  intro xs
  induction xs with
  | nil =>
      intro h h' ys _ hreg hrun
      simp only [copySeq, Option.some.injEq, Prod.mk.injEq] at hrun
      obtain ⟨rfl, rfl⟩ := hrun
      exact ⟨⟨[], by simp⟩, by simp, hreg⟩
  | cons x rest ih =>
      intro h h' ys hn hreg hrun
      simp only [copySeq, Option.bind_eq_bind, Option.bind_eq_some] at hrun
      obtain ⟨⟨h₁, y⟩, hx, ⟨⟨h₂, ys'⟩, hrest, hpure⟩⟩ := hrun
      simp only [Option.pure_def, Option.some.injEq, Prod.mk.injEq] at hpure
      obtain ⟨rfl, rfl⟩ := hpure
      obtain ⟨⟨t₁, rfl⟩, hy, hreg₁⟩ := hf h x h₁ y hn hreg hx
      have hn₁ : n ≤ (h ++ t₁).length := by simp; omega
      obtain ⟨⟨t₂, ht₂⟩, hys, hreg₂⟩ := ih (h ++ t₁) h₂ ys' hn₁ hreg₁ hrest
      refine ⟨⟨t₁ ++ t₂, by rw [ht₂, List.append_assoc]⟩, ?_, hreg₂⟩
      intro z hz
      rcases List.mem_cons.mp hz with rfl | hz'
      · exact hy
      · exact hys z hz'

/-- `copyPairsSeq` of a well-behaved copier is well-behaved on every
item's value. -/
theorem copyPairsSeq_good (n : Nat)
    (f : Heap → PyVal → Option (Heap × PyVal)) (hf : GoodCopy n f) :
    ∀ (xs : List (PKey × PyVal)) (h h' : Heap) (ys : List (PKey × PyVal)),
      n ≤ h.length → regionHi n h → copyPairsSeq f h xs = some (h', ys) →
      (∃ t, h' = h ++ t) ∧ (∀ y ∈ ys, valHi n y.2 = true) ∧ regionHi n h' := by
  intro xs
  induction xs with
  | nil =>
      intro h h' ys _ hreg hrun
      simp only [copyPairsSeq, Option.some.injEq, Prod.mk.injEq] at hrun
      obtain ⟨rfl, rfl⟩ := hrun
      exact ⟨⟨[], by simp⟩, by simp, hreg⟩
  | cons p rest ih =>
      intro h h' ys hn hreg hrun
      obtain ⟨k, x⟩ := p
      simp only [copyPairsSeq, Option.bind_eq_bind, Option.bind_eq_some] at hrun
      obtain ⟨⟨h₁, y⟩, hx, ⟨⟨h₂, ys'⟩, hrest, hpure⟩⟩ := hrun
      simp only [Option.pure_def, Option.some.injEq, Prod.mk.injEq] at hpure
      obtain ⟨rfl, rfl⟩ := hpure
      obtain ⟨⟨t₁, rfl⟩, hy, hreg₁⟩ := hf h x h₁ y hn hreg hx
      have hn₁ : n ≤ (h ++ t₁).length := by simp; omega
      obtain ⟨⟨t₂, ht₂⟩, hys, hreg₂⟩ := ih (h ++ t₁) h₂ ys' hn₁ hreg₁ hrest
      refine ⟨⟨t₁ ++ t₂, by rw [ht₂, List.append_assoc]⟩, ?_, hreg₂⟩
      intro z hz
      rcases List.mem_cons.mp hz with rfl | hz'
      · exact hy
      · exact hys z hz'
/-- Appending a node whose refs lie at or above `n` keeps the high
region upward closed. -/
theorem regionHi_append (n : Nat) (h : Heap) (node : PyNode)
    (hreg : regionHi n h) (hnode : nodeHi n node = true) :
    regionHi n (h ++ [node]) := by
  intro a nd ha hget
  rw [List.getElem?_append] at hget
  by_cases hlt : a < h.length
  · rw [if_pos hlt] at hget
    exact hreg a nd ha hget
  · rw [if_neg hlt] at hget
    have : a - h.length = 0 := by
      by_contra hne
      have h1 : 1 ≤ a - h.length := Nat.one_le_iff_ne_zero.mpr hne
      rw [List.getElem?_eq_none (by simpa using h1)] at hget
      exact Option.noConfusion hget
    rw [this] at hget
    simp only [List.getElem?_cons_zero, Option.some.injEq] at hget
    exact hget ▸ hnode

/-- `deepcopy` is a well-behaved copier at every boundary within the
heap. -/
theorem deepCopyV_good (n : Nat) : ∀ fuel, GoodCopy n (deepCopyV fuel) := by
  intro fuel
  induction fuel with
  | zero =>
      intro h v h' v' hn hreg hrun
      cases v <;> simp only [deepCopyV, Option.some.injEq, Prod.mk.injEq] at hrun
      case none => obtain ⟨rfl, rfl⟩ := hrun; exact ⟨⟨[], by simp⟩, rfl, hreg⟩
      case bool b => obtain ⟨rfl, rfl⟩ := hrun; exact ⟨⟨[], by simp⟩, rfl, hreg⟩
      case int m => obtain ⟨rfl, rfl⟩ := hrun; exact ⟨⟨[], by simp⟩, rfl, hreg⟩
      case str s => obtain ⟨rfl, rfl⟩ := hrun; exact ⟨⟨[], by simp⟩, rfl, hreg⟩
      case ref a => exact Option.noConfusion hrun
  | succ fuel ih =>
      intro h v h' v' hn hreg hrun
      cases v with
      | none => simp only [deepCopyV, Option.some.injEq, Prod.mk.injEq] at hrun
                obtain ⟨rfl, rfl⟩ := hrun; exact ⟨⟨[], by simp⟩, rfl, hreg⟩
      | bool b => simp only [deepCopyV, Option.some.injEq, Prod.mk.injEq] at hrun
                  obtain ⟨rfl, rfl⟩ := hrun; exact ⟨⟨[], by simp⟩, rfl, hreg⟩
      | int m => simp only [deepCopyV, Option.some.injEq, Prod.mk.injEq] at hrun
                 obtain ⟨rfl, rfl⟩ := hrun; exact ⟨⟨[], by simp⟩, rfl, hreg⟩
      | str s => simp only [deepCopyV, Option.some.injEq, Prod.mk.injEq] at hrun
                 obtain ⟨rfl, rfl⟩ := hrun; exact ⟨⟨[], by simp⟩, rfl, hreg⟩
      | ref a =>
          simp only [deepCopyV, List.get?_eq_getElem?] at hrun
          cases hnode : h[a]? with
          | none => rw [hnode] at hrun; exact Option.noConfusion hrun
          | some node =>
              rw [hnode] at hrun
              cases node with
              | list xs =>
                  simp only [Option.bind_eq_bind, Option.bind_eq_some] at hrun
                  obtain ⟨⟨h₁, ys⟩, hcopy, hpure⟩ := hrun
                  simp only [Option.pure_def, Option.some.injEq,
                    Prod.mk.injEq] at hpure
                  obtain ⟨rfl, rfl⟩ := hpure
                  obtain ⟨⟨t₁, rfl⟩, hys, hreg₁⟩ :=
                    copySeq_good n _ ih xs h h₁ ys hn hreg hcopy
                  refine ⟨⟨t₁ ++ [PyNode.list ys], by rw [List.append_assoc]⟩,
                    ?_, ?_⟩
                  · simp only [valHi, decide_eq_true_eq]
                    simp only [List.length_append]
                    omega
                  · exact regionHi_append n _ _ hreg₁
                      (by simp only [nodeHi, List.all_eq_true]; exact hys)
              | dict xs =>
                  simp only [Option.bind_eq_bind, Option.bind_eq_some] at hrun
                  obtain ⟨⟨h₁, ys⟩, hcopy, hpure⟩ := hrun
                  simp only [Option.pure_def, Option.some.injEq,
                    Prod.mk.injEq] at hpure
                  obtain ⟨rfl, rfl⟩ := hpure
                  obtain ⟨⟨t₁, rfl⟩, hys, hreg₁⟩ :=
                    copyPairsSeq_good n _ ih xs h h₁ ys hn hreg hcopy
                  refine ⟨⟨t₁ ++ [PyNode.dict ys], by rw [List.append_assoc]⟩,
                    ?_, ?_⟩
                  · simp only [valHi, decide_eq_true_eq]
                    simp only [List.length_append]
                    omega
                  · exact regionHi_append n _ _ hreg₁
                      (by simp only [nodeHi, List.all_eq_true]; exact hys)

/-- `clone_deep` is a well-behaved copier at every boundary within the
heap. -/
theorem clone_deepH_good (n : Nat) (fuel : Nat) :
    GoodCopy n (clone_deepH fuel) := by
  intro h v h' v' hn hreg hrun
  simp only [clone_deepH, Option.bind_eq_bind, Option.bind_eq_some] at hrun
  obtain ⟨⟨h₁, v₁⟩, hdc, hrest⟩ := hrun
  obtain ⟨⟨t₁, rfl⟩, hv₁, hreg₁⟩ := deepCopyV_good n fuel h v h₁ v₁ hn hreg hdc
  cases v₁ with
  | ref a =>
      simp only [List.get?_eq_getElem?] at hrest
      cases hnode : (h ++ t₁)[a]? with
      | none => rw [hnode] at hrest; exact Option.noConfusion hrest
      | some node =>
          rw [hnode] at hrest
          have ha : n ≤ a := by simpa [valHi] using hv₁
          have hnodeHi : nodeHi n node = true := hreg₁ a node ha hnode
          cases node with
          | list xs =>
              simp only [Option.pure_def, Option.some.injEq,
                Prod.mk.injEq] at hrest
              obtain ⟨rfl, rfl⟩ := hrest
              refine ⟨⟨t₁ ++ [PyNode.list xs], by rw [List.append_assoc]⟩,
                ?_, regionHi_append n _ _ hreg₁ hnodeHi⟩
              simp only [valHi, decide_eq_true_eq, List.length_append]
              omega
          | dict xs =>
              simp only [Option.pure_def, Option.some.injEq,
                Prod.mk.injEq] at hrest
              obtain ⟨rfl, rfl⟩ := hrest
              refine ⟨⟨t₁ ++ [PyNode.dict xs], by rw [List.append_assoc]⟩,
                ?_, regionHi_append n _ _ hreg₁ hnodeHi⟩
              simp only [valHi, decide_eq_true_eq, List.length_append]
              omega
  | none => exact Option.noConfusion hrest
  | bool b => exact Option.noConfusion hrest
  | int m => exact Option.noConfusion hrest
  | str s => exact Option.noConfusion hrest
/-- The values stored in a node. -/
def nodeVals : PyNode → List PyVal
  | .list xs => xs
  | .dict xs => xs.map Prod.snd

/-- `nodeHi` says exactly that every stored value is high. -/
theorem nodeHi_vals (n : Nat) (node : PyNode) :
    nodeHi n node = true ↔ ∀ y ∈ nodeVals node, valHi n y = true := by
  cases node <;> simp [nodeHi, nodeVals, List.all_eq_true]
  tauto

/-- A value of an updated dict node is an old value or the inserted
one. -/
theorem dictSetH_sub :
    ∀ (xs : List (PKey × PyVal)) (k : PKey) (x : PyVal)
      (q : PKey × PyVal), q ∈ dictSetH xs k x → q ∈ xs ∨ q.2 = x := by
  intro xs k x
  induction xs with
  | nil =>
      intro q hq
      simp only [dictSetH, List.mem_singleton] at hq
      exact Or.inr (by rw [hq])
  | cons p rest ih =>
      intro q hq
      obtain ⟨k', v'⟩ := p
      by_cases hk : k' = k
      · simp only [dictSetH, if_pos hk, List.mem_cons] at hq
        rcases hq with rfl | hq
        · exact Or.inr rfl
        · exact Or.inl (by simp [hq])
      · simp only [dictSetH, if_neg hk, List.mem_cons] at hq
        rcases hq with rfl | hq
        · exact Or.inl (by simp)
        · rcases ih q hq with h | h
          · exact Or.inl (by simp [h])
          · exact Or.inr h

/-- What a successful `set_item` does to the heap: the length is
unchanged, entries other than the target's are untouched, and the
target's new node stores only old values and possibly the written
one. -/
theorem setItemH_spec (h : Heap) (a : Addr) (k : PKey) (x : PyVal)
    (ao : Bool) (h' : Heap)
    (hrun : setItemH h (.ref a) k x ao = some h') :
    h'.length = h.length ∧ (∀ b, b ≠ a → h'[b]? = h[b]?) ∧
    ∀ node', h'[a]? = some node' →
      ∃ node₀, h[a]? = some node₀ ∧
        ∀ y ∈ nodeVals node', y ∈ nodeVals node₀ ∨ y = x := by
  cases hnode : h[a]? with
  | none => simp [setItemH, hnode] at hrun
  | some node =>
      have halt : a < h.length := by
        by_contra hge
        rw [List.getElem?_eq_none (Nat.le_of_not_lt hge)] at hnode
        exact Option.noConfusion hnode
      have hsetcase : ∀ node' : PyNode,
          (∀ y ∈ nodeVals node', y ∈ nodeVals node ∨ y = x) →
          h' = h.set a node' →
          h'.length = h.length ∧ (∀ b, b ≠ a → h'[b]? = h[b]?) ∧
          ∀ nd, h'[a]? = some nd →
            ∃ node₀, h[a]? = some node₀ ∧
              ∀ y ∈ nodeVals nd, y ∈ nodeVals node₀ ∨ y = x := by
        intro node' hsub heq
        subst heq
        refine ⟨by simp, fun b hb =>
          List.getElem?_set_ne (fun e => hb e.symm), ?_⟩
        intro nd hnd
        rw [List.getElem?_set_eq_of_lt _ halt] at hnd
        obtain rfl : node' = nd := by injection hnd
        exact ⟨node, hnode, hsub⟩
      have hidcase : h' = h →
          h'.length = h.length ∧ (∀ b, b ≠ a → h'[b]? = h[b]?) ∧
          ∀ nd, h'[a]? = some nd →
            ∃ node₀, h[a]? = some node₀ ∧
              ∀ y ∈ nodeVals nd, y ∈ nodeVals node₀ ∨ y = x := by
        intro heq
        subst heq
        exact ⟨rfl, fun _ _ => rfl, fun nd hnd =>
          ⟨nd, hnd, fun y hy => Or.inl hy⟩⟩
      cases node with
      | dict xs =>
          rw [← hnode]
          simp only [setItemH, List.get?_eq_getElem?, hnode] at hrun
          simp only [Bool.or_eq_true, Option.isNone_iff_eq_none] at hrun
          split_ifs at hrun with hc
          · injection hrun with hx
            refine hsetcase _ ?_ hx.symm
            intro y hy
            simp only [nodeVals, List.mem_map] at hy
            obtain ⟨q, hq, rfl⟩ := hy
            rcases dictSetH_sub xs k x q hq with hmem | hmemx
            · exact Or.inl (List.mem_map_of_mem Prod.snd hmem)
            · exact Or.inr hmemx
          · injection hrun with hx
            exact hidcase hx.symm
      | list xs =>
          cases k with
          | kS s => simp [setItemH, hnode] at hrun
          | kI i =>
              rw [← hnode]
              simp only [setItemH, List.get?_eq_getElem?, hnode] at hrun
              split_ifs at hrun with h1 h2 h3
              · injection hrun with hx
                refine hsetcase _ ?_ hx.symm
                intro y hy
                simp only [nodeVals] at hy ⊢
                rcases List.mem_or_eq_of_mem_set hy with hmem | rfl
                · exact Or.inl hmem
                · exact Or.inr rfl
              · injection hrun with hx
                exact hidcase hx.symm
              · injection hrun with hx
                refine hsetcase _ ?_ hx.symm
                intro y hy
                simp only [nodeVals, List.mem_append,
                  List.mem_singleton] at hy ⊢
                rcases hy with hmem | rfl
                · exact Or.inl hmem
                · exact Or.inr rfl
/-- A successful `set_item` of a high value keeps the high region upward
closed. -/
theorem setItemH_regionHi (n : Nat) (h : Heap) (t : PyVal) (k : PKey)
    (x : PyVal) (ao : Bool) (h' : Heap) (hreg : regionHi n h)
    (hx : valHi n x = true) (hrun : setItemH h t k x ao = some h') :
    regionHi n h' := by
  cases t with
  | ref a =>
      have spec := setItemH_spec h a k x ao h' hrun
      intro b nd hb hget
      by_cases hba : b = a
      · subst hba
        obtain ⟨node₀, hnode₀, hsub⟩ := spec.2.2 nd hget
        rw [nodeHi_vals]
        intro y hy
        rcases hsub y hy with hmem | rfl
        · exact (nodeHi_vals n node₀).mp (hreg b node₀ hb hnode₀) y hmem
        · exact hx
      · rw [spec.2.1 b hba] at hget
        exact hreg b nd hb hget
  | none => simp [setItemH] at hrun
  | bool b => simp [setItemH] at hrun
  | int m => simp [setItemH] at hrun
  | str s => simp [setItemH] at hrun

/-- Reading any key of a high value in an upward-closed region yields a
high value. -/
theorem getItemH_hi (n : Nat) (h : Heap) (t : PyVal) (k : PKey)
    (hreg : regionHi n h) (ht : valHi n t = true) :
    valHi n (getItemH h t k) = true := by
  cases t with
  | ref a =>
      have ha : n ≤ a := by simpa [valHi] using ht
      cases hnode : h[a]? with
      | none => simp [getItemH, hnode, valHi]
      | some node =>
          have hnodeHi := (nodeHi_vals n node).mp (hreg a node ha hnode)
          cases node with
          | dict xs =>
              simp [getItemH, hnode]
              cases hdg : dictGetH xs k with
              | none => simp [valHi]
              | some y =>
                  simp only [Option.getD_some]
                  have hex : ∃ p, List.find? (fun p => p.1 == k) xs = some p ∧
                      p.2 = y := by
                    simpa [dictGetH, Option.map_eq_some'] using hdg
                  obtain ⟨p, hfind, rfl⟩ := hex
                  exact hnodeHi p.2 (List.mem_map_of_mem Prod.snd
                    (List.mem_of_find?_eq_some hfind))
          | list xs =>
              cases k with
              | kS s => simp [getItemH, hnode, valHi]
              | kI i =>
                  simp only [getItemH, List.get?_eq_getElem?, hnode]
                  by_cases hin : 0 ≤ i ∧ i.toNat < xs.length
                  · rw [dif_pos hin]
                    exact hnodeHi _ (List.get_mem xs i.toNat _)
                  · rw [dif_neg hin]
                    rfl
  | none => rfl
  | bool b => rfl
  | int m => rfl
  | str s => rfl
/-- The auto-vivification loop writes only at or above the boundary:
entries below it are untouched, the region stays upward closed, and the
descended target stays high. -/
theorem updateLoopH_inv (n : Nat) (fuel : Nat) (dV : PyVal) :
    ∀ (ks : List PKey) (h : Heap) (t : PyVal) (h' : Heap) (t' : PyVal),
      n ≤ h.length → regionHi n h → valHi n t = true →
      updateLoopH fuel dV h t ks = some (h', t') →
      (∀ b, b < n → h'[b]? = h[b]?) ∧ n ≤ h'.length ∧ regionHi n h' ∧
        valHi n t' = true := by
  intro ks
  induction ks with
  | nil =>
      intro h t h' t' hn hreg ht hrun
      simp only [updateLoopH, Option.some.injEq, Prod.mk.injEq] at hrun
      obtain ⟨rfl, rfl⟩ := hrun
      exact ⟨fun _ _ => rfl, hn, hreg, ht⟩
  | cons k rest ih =>
      intro h t h' t' hn hreg ht hrun
      simp only [updateLoopH, Option.bind_eq_bind, Option.bind_eq_some] at hrun
      obtain ⟨⟨h₁, dcopy⟩, hclone, h₂, hset, hloop⟩ := hrun
      obtain ⟨⟨t₁, rfl⟩, hdc, hreg₁⟩ :=
        clone_deepH_good n fuel h dV h₁ dcopy hn hreg hclone
      cases t with
      | ref a =>
          have ha : n ≤ a := by simpa [valHi] using ht
          have spec := setItemH_spec (h ++ t₁) a k dcopy false h₂ hset
          have hreg₂ : regionHi n h₂ :=
            setItemH_regionHi n (h ++ t₁) (.ref a) k dcopy false h₂ hreg₁
              hdc hset
          have hn₂ : n ≤ h₂.length := by
            rw [spec.1, List.length_append]
            omega
          have ht₂ : valHi n (getItemH h₂ (.ref a) k) = true :=
            getItemH_hi n h₂ (.ref a) k hreg₂ ht
          obtain ⟨hagree', hn', hreg', ht'⟩ := ih h₂ _ h' t' hn₂ hreg₂ ht₂ hloop
          refine ⟨?_, hn', hreg', ht'⟩
          intro b hb
          have hbh : b < h.length := lt_of_lt_of_le hb hn
          have hba : b ≠ a := by omega
          rw [hagree' b hb, spec.2.1 b hba, List.getElem?_append, if_pos hbh]
      | none => simp [setItemH] at hset
      | bool b => simp [setItemH] at hset
      | int m => simp [setItemH] at hset
      | str s => simp [setItemH] at hset

/-- The core of `update_path` after default normalization: deep-copy the
object, run the loop, write the last key — all writes land at or above
the boundary, and the returned root is a fresh (high) reference. -/
theorem updateCore_inv (n fuel : Nat) (h₀ : Heap) (obj dV : PyVal)
    (cb : PyVal → PyVal) (initKs : List PKey) (lastK : PKey)
    (h₁ h₂ h₃ : Heap) (obj' target : PyVal)
    (hn : n ≤ h₀.length) (hreg : regionHi n h₀)
    (hclone : clone_deepH fuel h₀ obj = some (h₁, obj'))
    (hloop : updateLoopH fuel dV h₁ obj' initKs = some (h₂, target))
    (hset : setItemH h₂ target lastK (cb (getItemH h₂ target lastK)) true =
      some h₃) :
    (∀ b, b < n → h₃[b]? = h₀[b]?) ∧ valHi n obj' = true := by
  obtain ⟨⟨t₁, rfl⟩, hobj', hreg₁⟩ :=
    clone_deepH_good n fuel h₀ obj h₁ obj' hn hreg hclone
  have hn₁ : n ≤ (h₀ ++ t₁).length := by
    rw [List.length_append]
    omega
  obtain ⟨hagree₂, hn₂, hreg₂, htgt⟩ :=
    updateLoopH_inv n fuel dV initKs (h₀ ++ t₁) obj' h₂ target hn₁ hreg₁
      hobj' hloop
  cases target with
  | ref a =>
      have ha : n ≤ a := by simpa [valHi] using htgt
      have spec := setItemH_spec h₂ a lastK
        (cb (getItemH h₂ (.ref a) lastK)) true h₃ hset
      refine ⟨?_, hobj'⟩
      intro b hb
      have hbh : b < h₀.length := lt_of_lt_of_le hb hn
      have hba : b ≠ a := by omega
      rw [spec.2.1 b hba, hagree₂ b hb, List.getElem?_append, if_pos hbh]
  | none => simp [setItemH] at hset
  | bool b => simp [setItemH] at hset
  | int m => simp [setItemH] at hset
  | str s => simp [setItemH] at hset
/-- Claim C6: `update_path` (and with it `set_path`, which is
`update_path` with a constant callback) returns a new, deep-copied
top-level object and never mutates its argument: on a closed heap,
every write of a successful run lands in the fresh region at or above
the original heap's length, so the original `obj` reifies identically
before and after at every fuel, and the returned root is a fresh
reference. -/
theorem update_path_never_mutates (fuel : Nat) (h : Heap) (obj : PyVal)
    (cb : PyVal → PyVal) (keys : List PKey) (dflt : Option PyVal)
    (h' : Heap) (root : PyVal)
    (hcl : heapClosed h = true) (hobj : valBelow h.length obj = true)
    (hrun : update_pathH fuel h obj cb keys dflt = some (h', root)) :
    (∀ fr : Nat, reify fr h' obj = reify fr h obj) ∧
    valHi h.length root = true := by
  have hclB : ∀ a node, a < h.length → h[a]? = some node →
      nodeBelow h.length node = true := by
    intro a node _ hget
    exact List.all_eq_true.mp hcl node (List.getElem?_mem hget)
  have hregH : regionHi h.length h := by
    intro a node ha hget
    have halt : a < h.length := by
      by_contra hge
      rw [List.getElem?_eq_none (Nat.le_of_not_lt hge)] at hget
      exact Option.noConfusion hget
    omega
  obtain ⟨hagree, hhi⟩ :
      (∀ b, b < h.length → h'[b]? = h[b]?) ∧
        valHi h.length root = true := by
    cases hlast : keys.getLast? with
    | none =>
        simp only [update_pathH, hlast] at hrun
        exact Option.noConfusion hrun
    | some lastK =>
        cases dflt with
        | some d =>
            simp only [update_pathH, hlast, Option.bind_eq_bind,
              Option.bind_eq_some, Option.pure_def, Option.some.injEq,
              Prod.mk.injEq] at hrun
            obtain ⟨⟨h₁, obj'⟩, hclone, ⟨h₂, target⟩, hloop, h₃, hset,
              rfl, rfl⟩ := hrun
            exact updateCore_inv h.length fuel h obj d cb keys.dropLast
              lastK h₁ h₂ h₃ obj' target le_rfl hregH hclone hloop hset
        | none =>
            by_cases hdict : isDictH h obj = true
            · simp only [update_pathH, hlast, hdict, if_pos,
                Option.bind_eq_bind, Option.bind_eq_some, Option.pure_def,
                Option.some.injEq, Prod.mk.injEq] at hrun
              obtain ⟨⟨h₁, obj'⟩, hclone, ⟨h₂, target⟩, hloop, h₃, hset,
                rfl, rfl⟩ := hrun
              have hreg₀ : regionHi h.length (h ++ [PyNode.dict []]) :=
                regionHi_append _ _ _ hregH (by simp [nodeHi])
              have ⟨hagree₀, hhi₀⟩ := updateCore_inv h.length fuel
                (h ++ [PyNode.dict []]) obj (.ref h.length) cb keys.dropLast
                lastK h₁ h₂ h₃ obj' target (by simp) hreg₀ hclone hloop hset
              refine ⟨?_, hhi₀⟩
              intro b hb
              rw [hagree₀ b hb, List.getElem?_append, if_pos hb]
            · simp only [update_pathH, hlast, hdict, if_neg,
                Bool.false_eq_true, Option.bind_eq_bind, Option.bind_eq_some,
                Option.pure_def, Option.some.injEq, Prod.mk.injEq] at hrun
              obtain ⟨⟨h₁, obj'⟩, hclone, ⟨h₂, target⟩, hloop, h₃, hset,
                rfl, rfl⟩ := hrun
              have hreg₀ : regionHi h.length (h ++ [PyNode.list []]) :=
                regionHi_append _ _ _ hregH (by simp [nodeHi])
              have ⟨hagree₀, hhi₀⟩ := updateCore_inv h.length fuel
                (h ++ [PyNode.list []]) obj (.ref h.length) cb keys.dropLast
                lastK h₁ h₂ h₃ obj' target (by simp) hreg₀ hclone hloop hset
              refine ⟨?_, hhi₀⟩
              intro b hb
              rw [hagree₀ b hb, List.getElem?_append, if_pos hb]
  exact ⟨fun fr => reify_agree h.length h h' hclB hagree fr obj hobj, hhi⟩
/-- Claim C6, witness: the preservation theorem applied to the spec's
own example — after `set_path({}, 'x', ['a','b','c'])` the original
empty mapping still reifies to `{}`. -/
theorem update_path_never_mutates_witness :
    heapClosed [PyNode.dict []] = true ∧
    valBelow (List.length [PyNode.dict []]) (PyVal.ref 0) = true ∧
    (set_pathH 20 [PyNode.dict []] (.ref 0) (.str "x")
        [.kS "a", .kS "b", .kS "c"] Option.none).bind
      (fun r => reify 9 r.1 (.ref 0)) = some (.dict []) := by
  refine ⟨by decide, by decide, ?_⟩
  cases hrun : set_pathH 20 [PyNode.dict []] (.ref 0) (.str "x")
      [.kS "a", .kS "b", .kS "c"] Option.none with
  | none =>
      have hs : (set_pathH 20 [PyNode.dict []] (.ref 0) (.str "x")
          [.kS "a", .kS "b", .kS "c"] Option.none).isSome = true := by decide
      rw [hrun] at hs
      exact Bool.noConfusion hs
  | some r =>
      obtain ⟨hagree, _⟩ := update_path_never_mutates 20 [PyNode.dict []]
        (.ref 0) (fun _ => .str "x") [.kS "a", .kS "b", .kS "c"]
        Option.none r.1 r.2 (by decide) (by decide)
        (by rw [← hrun]; rfl)
      rw [Option.some_bind, hagree 9]
      decide

end Pydash
